import Mathlib

/-!
# Verification of the `lc` line/word/byte counting utility

A shallow embedding of `src/lc.c` (the `lc` utility) together with proofs
about its scan strategies.  Byte streams are modelled as lists of naturals
(byte values), a byte source as the `fstat` data plus the script of results
the successive `read` calls deliver, and the `uintmax_t` counters as naturals
reduced modulo `2 ^ 64`.

The program calls the C library's multibyte decoder `mbrtowc` and the
wide-character classifier `iswspace`; that code is not part of the
repository, so it is modelled here (for the ambient UTF-8 multibyte
encoding, following the decoder contract stated in the specification:
return values `0`, `-1` for an invalid sequence, `-2` for an incomplete
sequence at the buffer tail, a persistent shift state across calls, and a
consumed-byte count on success).
-/

namespace LC

/-- Word width of `uintmax_t` arithmetic: all counter updates in the C
source happen modulo `2 ^ 64`. -/
def W64 : Nat := 2 ^ 64

/-- The compile-time read-block size `MAXSIZE` from the source. -/
def MAXSIZE : Nat := 65205

/-- Macro `is_ascii(x) = !(x & ~0x7f)` of the source, on byte values. -/
def is_ascii (x : Nat) : Bool := x < 0x80

/-- Macro `is_print(x) = ((unsigned int)x - 0x20) < 0x5f` of the source:
with `x` a (sign-extended) byte this holds exactly for `0x20 ≤ x < 0x7f`. -/
def is_print (x : Nat) : Bool := 0x20 ≤ x && x < 0x7f

/-- Macro `is_space(x) = (x == ' ' || ((x - '\t') < 5))` of the source;
the subtraction is signed `int` arithmetic, so the second disjunct is
`x < 14`. -/
def is_space (x : Nat) : Bool := x == 0x20 || ((x : Int) - 9 < 5)

/-- Models the C library's `iswspace` wide-character classifier for the
ambient UTF-8 locale (the specification's "locale's wide-character
whitespace classifier"): the Unicode white-space code points. -/
def iswspace (c : Nat) : Bool :=
  (9 ≤ c && c ≤ 13) || c == 0x20 || c == 0x85 || c == 0x1680 ||
  (0x2000 ≤ c && c ≤ 0x200a) || c == 0x2028 || c == 0x2029 ||
  c == 0x205f || c == 0x3000

/-- The decoder's shift state `mbstate_t`: the bytes of a so-far valid but
incomplete multibyte sequence already consumed by earlier `mbrtowc` calls. -/
structure mbstate_t where
  pending : List Nat
deriving DecidableEq, Repr

/-- The zero-initialised `mbstate_t` (`= {0}` in the source). -/
def mbst0 : mbstate_t := ⟨[]⟩

/-- Result of one `mbrtowc` call: success with the decoded wide character
and the number of bytes consumed from the given buffer, or the error
returns `(size_t)-1` (invalid) and `(size_t)-2` (incomplete at tail).
A successful decode of the null character (C return value `0`) is folded
into `ok 0 1`, which the C caller treats identically (`wlen = 1`,
`pwc = 0`). -/
inductive MbRes where
  | ok (pwc wlen : Nat) (st : mbstate_t)
  | invalid (st : mbstate_t)
  | incomplete (st : mbstate_t)
deriving DecidableEq, Repr

/-- Total length (in bytes) of the UTF-8 sequence introduced by lead byte
`b`; `0` marks an invalid lead byte (continuation bytes, the overlong
leads `0xc0`/`0xc1`, and `0xf5` and above). -/
def utf8_len (b : Nat) : Nat :=
  if b < 0x80 then 1
  else if b < 0xc2 then 0
  else if b < 0xe0 then 2
  else if b < 0xf0 then 3
  else if b < 0xf5 then 4
  else 0

/-- Smallest code point encodable in a UTF-8 sequence of the given length
(used to reject overlong encodings). -/
def utf8_min (l : Nat) : Nat :=
  match l with
  | 2 => 0x80
  | 3 => 0x800
  | 4 => 0x10000
  | _ => 0

/-- Is `b` a UTF-8 continuation byte? -/
def utf8_cont (b : Nat) : Bool := 0x80 ≤ b && b < 0xc0

/-- Code point of a complete UTF-8 sequence (payload of the lead byte,
then 6 payload bits per continuation byte). -/
def utf8_val (bs : List Nat) : Nat :=
  match bs with
  | [] => 0
  | b :: rest =>
    let lead :=
      if rest.length == 0 then b
      else if rest.length == 1 then b - 0xc0
      else if rest.length == 2 then b - 0xe0
      else b - 0xf0
    rest.foldl (fun acc c => acc * 64 + (c - 0x80)) lead

/-- Outcome of trying to take `k` continuation bytes from the front of a
buffer: all `k` obtained (with the remaining buffer), a non-continuation
byte encountered, or the buffer exhausted first. -/
inductive Grab where
  | got (taken rest : List Nat)
  | bad
  | short (taken : List Nat)
deriving DecidableEq, Repr

/-- Take `k` continuation bytes from the front of `l` (see `Grab`). -/
def grabConts : Nat → List Nat → Grab
  | 0, l => .got [] l
  | _ + 1, [] => .short []
  | k + 1, b :: rest =>
    if utf8_cont b then
      match grabConts k rest with
      | .got t r => .got (b :: t) r
      | .bad => .bad
      | .short t => .short (b :: t)
    else .bad

/-- Models the C library's `mbrtowc(&pwc, p, n, &mst)` for the ambient
UTF-8 encoding, called with `n ≥ 1` bytes at `p`.  On success it reports
the number of bytes consumed *from the given buffer* and resets the state;
on `incomplete` (C return `(size_t)-2`) it stores every given byte into
the shift state; on `invalid` (C return `(size_t)-1`) the state is left
unchanged and `pwc` is not written. -/
def utf8_mbrtowc (st : mbstate_t) (input : List Nat) : MbRes :=
  match st.pending with
  | [] =>
    match input with
    | [] => .incomplete st
    | b :: rest =>
      let l := utf8_len b
      if l == 0 then .invalid st
      else if l == 1 then .ok b 1 mbst0
      else
        match grabConts (l - 1) rest with
        | .bad => .invalid st
        | .short t => .incomplete ⟨b :: t⟩
        | .got t _ =>
          let v := utf8_val (b :: t)
          if v < utf8_min l then .invalid st else .ok v l mbst0
  | p0 :: ps =>
    let l := utf8_len p0
    let need := l - (ps.length + 1)
    match grabConts need input with
    | .bad => .invalid st
    | .short t => .incomplete ⟨st.pending ++ t⟩
    | .got t _ =>
      let v := utf8_val (st.pending ++ t)
      if v < utf8_min l then .invalid st else .ok v need mbst0

/-- The decode step as the C callers perform it: `pwc` is pre-set to the
raw byte `(unsigned char)*p`, `mbrtowc` is called on the remaining buffer,
and a return of `0`, `(size_t)-1` or `(size_t)-2` is replaced by a
one-byte advance (leaving `pwc` at the raw byte value).  Returns
`(pwc, wlen, new state)`. -/
def mb_consume (st : mbstate_t) (b : Nat) (rest : List Nat) :
    Nat × Nat × mbstate_t :=
  match utf8_mbrtowc st (b :: rest) with
  | .ok v k st' => (v, k, st')
  | .invalid st' => (b, 1, st')
  | .incomplete st' => (b, 1, st')

/-! ## The data model of the program -/

/-- Structure `lc_info` of the source (all fields `uintmax_t`). -/
structure lc_info where
  num_bytes : Nat
  num_lines : Nat
  num_words : Nat
  lines_total : Nat
  words_total : Nat
  bytes_total : Nat
deriving DecidableEq, Repr

/-- Structure `lc_conf` of the source. -/
structure lc_conf where
  opt_bytes : Bool
  opt_lines : Bool
  opt_words : Bool
deriving DecidableEq, Repr

/-- The all-zero `lc_info` (`struct lc_info li = {0}` in `main`). -/
def lc0 : lc_info := ⟨0, 0, 0, 0, 0, 0⟩

/-- A byte source (an open file descriptor): the `fstat` data, and the
script of results that the successive `read(fd, buf, MAXSIZE)` calls
deliver.  `some chunk` is a read returning `chunk.length` bytes,
`none` is a failing read returning `(ssize_t)-1`; once the script is
exhausted every further read returns `0` (end of stream). -/
structure Source where
  is_reg : Bool
  st_size : Nat
  reads : List (Option (List Nat))

/-- What a scan strategy did: the resulting `lc_info`, how many times the
function itself called `close(fd)`, how many `read` calls it issued, and
the buffer indices at which the lines-and-bytes strategy wrote its
sentinel newline. -/
structure ScanOut where
  li : lc_info
  closes : Nat
  nreads : Nat
  sentinels : List Nat
deriving Repr

/-! ## `count_all` (strategy `COUNT_ALL`) -/

/-- Result of the inner byte-walking loop of `count_all` over one read
buffer. -/
structure AChunk where
  st : mbstate_t
  hs : Bool
  lines : Nat
  words : Nat
deriving DecidableEq, Repr

/-- The body of the inner loop of `count_all` at one byte position: the
ASCII-printable fast path classifies the byte directly (note the source's
`*p == '\n'` test sits behind the whitespace test and the printability
guard), otherwise the multibyte decode step runs.  Returns the updated
walk state together with the advance `wlen`. -/
def ca_step (st : mbstate_t) (hs : Bool) (lines words : Nat) (b : Nat)
    (rest : List Nat) : AChunk × Nat :=
  if is_ascii b && is_print b then
    if is_space b then (⟨st, true, lines, words⟩, 1)
    else if hs then (⟨st, false, lines, (words + 1) % W64⟩, 1)
    else if b == 10 then (⟨st, hs, (lines + 1) % W64, words⟩, 1)
    else (⟨st, hs, lines, words⟩, 1)
  else
    let r := mb_consume st b rest
    let lines' := if r.1 == 10 then (lines + 1) % W64 else lines
    if iswspace r.1 then (⟨r.2.2, true, lines', words⟩, r.2.1)
    else if hs then (⟨r.2.2, false, lines', (words + 1) % W64⟩, r.2.1)
    else (⟨r.2.2, false, lines', words⟩, r.2.1)

/-- The inner loop of `count_all` over one read buffer: walk the bytes,
applying `ca_step` and advancing by its `wlen`. -/
def count_all_chunk (st : mbstate_t) (hs : Bool) (lines words : Nat) :
    List Nat → AChunk
  | [] => ⟨st, hs, lines, words⟩
  | b :: rest =>
    let s := ca_step st hs lines words b rest
    count_all_chunk s.1.st s.1.hs s.1.lines s.1.words (rest.drop (s.2 - 1))
termination_by l => l.length
decreasing_by
  simp only [List.length_cons, List.length_drop]
  omega

/-- Result of a scanner's outer read loop. -/
structure LoopOut where
  lines : Nat
  words : Nat
  sum : Nat
  nreads : Nat
  sentinels : List Nat
deriving Repr

/-- The read loop of `count_all`: `while ((bytes_read = read(...)) != 0)`.
A failing read (`bytes_read = -1`) is *not* `0`, so the loop body runs:
`sum_bytes += (uintmax_t)bytes_read` adds `2^64 - 1` and the inner loop
(guarded by `bytes_read > 0`) is skipped. -/
def count_all_loop (st : mbstate_t) (hs : Bool) (lines words sum : Nat) :
    List (Option (List Nat)) → LoopOut
  | [] => ⟨lines, words, sum, 1, []⟩
  | some chunk :: rest =>
    if chunk.isEmpty then ⟨lines, words, sum, 1, []⟩
    else
      let a := count_all_chunk st hs lines words chunk
      let o := count_all_loop a.st a.hs a.lines a.words
        ((sum + chunk.length) % W64) rest
      ⟨o.lines, o.words, o.sum, o.nreads + 1, o.sentinels⟩
  | none :: rest =>
    let o := count_all_loop st hs lines words ((sum + (W64 - 1)) % W64) rest
    ⟨o.lines, o.words, o.sum, o.nreads + 1, o.sentinels⟩

/-- `count_all` of the source: count bytes, lines and words in one loop.
`num_bytes` is pre-set from `fstat` for a regular file of positive size
and otherwise patched to the summed read lengths after the loop.  This
function does not close the descriptor. -/
def count_all (li : lc_info) (src : Source) : ScanOut :=
  let nb0 := if src.is_reg && 0 < src.st_size then src.st_size % W64 else 0
  let o := count_all_loop mbst0 true 0 0 0 src.reads
  let nb := if nb0 == 0 then o.sum else nb0
  ⟨{ li with num_bytes := nb, num_lines := o.lines, num_words := o.words },
    0, o.nreads, []⟩

/-! ## `count_bytes` (strategy `COUNT_BYTES_ONLY`) -/

/-- The read loop of `count_bytes`: `num_bytes += (uintmax_t)bytes_read`
for every read until one returns `0`; a failing read contributes
`(uintmax_t)(-1) = 2^64 - 1`.  Returns the counter and the number of
`read` calls. -/
def count_bytes_loop (nb : Nat) : List (Option (List Nat)) → Nat × Nat
  | [] => (nb, 1)
  | some chunk :: rest =>
    if chunk.isEmpty then (nb, 1)
    else
      let o := count_bytes_loop ((nb + chunk.length) % W64) rest
      (o.1, o.2 + 1)
  | none :: rest =>
    let o := count_bytes_loop ((nb + (W64 - 1)) % W64) rest
    (o.1, o.2 + 1)

/-- `count_bytes` of the source: for a regular file of positive declared
size, report that size without issuing any read; otherwise drain the
source and sum the read results.  The function closes the descriptor
before returning. -/
def count_bytes (li : lc_info) (src : Source) : ScanOut :=
  if src.is_reg && 0 < src.st_size then
    ⟨{ li with num_bytes := src.st_size % W64 }, 1, 0, []⟩
  else
    let o := count_bytes_loop 0 src.reads
    ⟨{ li with num_bytes := o.1 }, 1, o.2, []⟩

/-! ## `count_lines_and_bytes` (strategy `COUNT_LINES_AND_BYTES`) -/

/-- The byte allocated for the read buffer: `buf = malloc(MAXSIZE)`. -/
def clb_buf_alloc : Nat := MAXSIZE

/-- The buffer index at which the long-mode path writes its sentinel:
`last = p + bytes_read; *last = '\n'` with `p = buf`. -/
def clb_sentinel_index (bytes_read : Nat) : Nat := bytes_read

/-- Index of the first newline byte in a buffer (models `memchr(p, '\n', (size_t)-1)`
relative to the scan pointer). -/
def memchr_nl : List Nat → Option Nat
  | [] => none
  | b :: rest =>
    if b == 10 then some 0 else (memchr_nl rest).map (· + 1)

theorem memchr_nl_lt {l : List Nat} {i : Nat} (h : memchr_nl l = some i) :
    i < l.length := by
  induction l generalizing i with
  | nil => simp [memchr_nl] at h
  | cons b rest ih =>
    simp only [memchr_nl] at h
    by_cases hb : b == 10
    · simp [hb] at h
      simp only [List.length_cons]
      omega
    · simp [hb] at h
      obtain ⟨j, hj, rfl⟩ := h
      have := ih hj
      simp only [List.length_cons]
      omega

/-- The long-mode counting loop of `count_lines_and_bytes`:
`for (; (p = memchr(p, '\n', (size_t)-1)) < last; p++) num_lines++`.
`s` is the buffer suffix from the scan pointer on; its final element is
the sentinel newline, so `memchr` always finds a newline, and the loop
stops when the hit is the sentinel (the last element of `s`). -/
def clb_long_loop (lines : Nat) (s : List Nat) : Nat :=
  match memchr_nl s with
  | none => lines
  | some i =>
    if h : i + 1 < s.length then
      clb_long_loop ((lines + 1) % W64) (s.drop (i + 1))
    else lines
termination_by s.length
decreasing_by
  simp only [List.length_drop]
  omega

/-- The byte-at-a-time counting loop of `count_lines_and_bytes`:
`while (bytes_read--) if (*p++ == '\n') num_lines++`. -/
def clb_chunk_short (lines : Nat) : List Nat → Nat
  | [] => lines
  | b :: rest => clb_chunk_short (if b == 10 then (lines + 1) % W64 else lines) rest

/-- The read loop of `count_lines_and_bytes`.  In long mode the sentinel
newline is written at index `bytes_read` (recorded in `sentinels`) and
the `memchr` loop runs over the filled region followed by the sentinel;
otherwise the promotion predicate
`expect_long = ((uintmax_t)(bytes_read * 6) <= num_lines)` is evaluated
and the block is counted bytewise.  A failing read (`bytes_read = -1`)
runs the loop body into undefined behaviour in C (a negative-length
scan); it is modelled as adding `(uintmax_t)(-1)` to `sum_bytes` and
scanning nothing, and no theorem below relies on this branch. -/
def clb_loop (el : Bool) (lines sum : Nat) :
    List (Option (List Nat)) → LoopOut
  | [] => ⟨lines, 0, sum, 1, []⟩
  | some chunk :: rest =>
    if chunk.isEmpty then ⟨lines, 0, sum, 1, []⟩
    else
      let sum' := (sum + chunk.length) % W64
      if el then
        let l' := clb_long_loop lines (chunk ++ [10])
        let o := clb_loop true l' sum' rest
        ⟨o.lines, 0, o.sum, o.nreads + 1, clb_sentinel_index chunk.length :: o.sentinels⟩
      else
        let el' := decide ((chunk.length * 6) % W64 ≤ lines)
        let l' := clb_chunk_short lines chunk
        let o := clb_loop el' l' sum' rest
        ⟨o.lines, 0, o.sum, o.nreads + 1, o.sentinels⟩
  | none :: rest =>
    let o := clb_loop el lines ((sum + (W64 - 1)) % W64) rest
    ⟨o.lines, 0, o.sum, o.nreads + 1, o.sentinels⟩

/-- `count_lines_and_bytes` of the source: count lines and bytes in one
loop, with the long-mode promotion.  `num_bytes` is pre-set from `fstat`
for a regular file of positive size, otherwise patched to the summed read
lengths.  The function closes the descriptor before returning. -/
def count_lines_and_bytes (li : lc_info) (src : Source) : ScanOut :=
  let nb0 := if src.is_reg && 0 < src.st_size then src.st_size % W64 else 0
  let o := clb_loop false 0 0 src.reads
  let nb := if nb0 == 0 then o.sum else nb0
  ⟨{ li with num_bytes := nb, num_lines := o.lines }, 1, o.nreads, o.sentinels⟩

/-- Variant of `count_lines_and_bytes` written from the specification's
words with the long-mode promotion disabled ("It is an optional
optimization; correctness does not depend on it"): every block is counted
by the byte-at-a-time loop. -/
def clb_loop_noLong (lines sum : Nat) :
    List (Option (List Nat)) → LoopOut
  | [] => ⟨lines, 0, sum, 1, []⟩
  | some chunk :: rest =>
    if chunk.isEmpty then ⟨lines, 0, sum, 1, []⟩
    else
      let sum' := (sum + chunk.length) % W64
      let l' := clb_chunk_short lines chunk
      let o := clb_loop_noLong l' sum' rest
      ⟨o.lines, 0, o.sum, o.nreads + 1, o.sentinels⟩
  | none :: rest =>
    let o := clb_loop_noLong lines ((sum + (W64 - 1)) % W64) rest
    ⟨o.lines, 0, o.sum, o.nreads + 1, o.sentinels⟩

/-- `count_lines_and_bytes` with the promotion heuristic never taken
(specification-side reference for the refinement claim). -/
def count_lines_and_bytes_noLong (li : lc_info) (src : Source) : ScanOut :=
  let nb0 := if src.is_reg && 0 < src.st_size then src.st_size % W64 else 0
  let o := clb_loop_noLong 0 0 src.reads
  let nb := if nb0 == 0 then o.sum else nb0
  ⟨{ li with num_bytes := nb, num_lines := o.lines }, 1, o.nreads, o.sentinels⟩

/-! ## `count_words` (strategy `COUNT_WORDS_ONLY`) -/

/-- Result of the inner byte-walking loop of `count_words` over one read
buffer. -/
structure WChunk where
  st : mbstate_t
  hs : Bool
  words : Nat
deriving DecidableEq, Repr

/-- The body of the inner loop of `count_words` at one byte position:
identical to `ca_step` except that no line counting happens. -/
def cw_step (st : mbstate_t) (hs : Bool) (words : Nat) (b : Nat)
    (rest : List Nat) : WChunk × Nat :=
  if is_ascii b && is_print b then
    if is_space b then (⟨st, true, words⟩, 1)
    else if hs then (⟨st, false, (words + 1) % W64⟩, 1)
    else (⟨st, hs, words⟩, 1)
  else
    let r := mb_consume st b rest
    if iswspace r.1 then (⟨r.2.2, true, words⟩, r.2.1)
    else if hs then (⟨r.2.2, false, (words + 1) % W64⟩, r.2.1)
    else (⟨r.2.2, false, words⟩, r.2.1)

/-- The inner loop of `count_words` over one read buffer. -/
def count_words_chunk (st : mbstate_t) (hs : Bool) (words : Nat) :
    List Nat → WChunk
  | [] => ⟨st, hs, words⟩
  | b :: rest =>
    let s := cw_step st hs words b rest
    count_words_chunk s.1.st s.1.hs s.1.words (rest.drop (s.2 - 1))
termination_by l => l.length
decreasing_by
  simp only [List.length_cons, List.length_drop]
  omega

/-- The read loop of `count_words`.  A failing read (`bytes_read = -1`)
skips the inner loop (`bytes_read > 0` fails) and changes nothing. -/
def count_words_loop (st : mbstate_t) (hs : Bool) (words : Nat) :
    List (Option (List Nat)) → Nat × Nat
  | [] => (words, 1)
  | some chunk :: rest =>
    if chunk.isEmpty then (words, 1)
    else
      let a := count_words_chunk st hs words chunk
      let o := count_words_loop a.st a.hs a.words rest
      (o.1, o.2 + 1)
  | none :: rest =>
    let o := count_words_loop st hs words rest
    (o.1, o.2 + 1)

/-- `count_words` of the source.  The function closes the descriptor
before returning. -/
def count_words (li : lc_info) (src : Source) : ScanOut :=
  let o := count_words_loop mbst0 true 0 src.reads
  ⟨{ li with num_words := o.1 }, 1, o.2, []⟩

/-! ## The driver: `use_opts` and `main` -/

/-- The promotion at the top of `use_opts`: an empty option set is
replaced by all three counters. -/
def promote (lc : lc_conf) : lc_conf :=
  if !lc.opt_lines && !lc.opt_words && !lc.opt_bytes then ⟨true, true, true⟩
  else lc

/-- Result of `use_opts`: the updated `lc_info` (running totals included),
the updated (promoted) `lc_conf`, the counter fields printed for this
source in print order, and the number of `close(fd)` calls the selected
scan strategy performed. -/
structure UseOut where
  li : lc_info
  lc : lc_conf
  fields : List Nat
  closes : Nat

/-- `use_opts` of the source: select the scan strategy from the option
set, run it, print the enabled counters and accumulate the totals. -/
def use_opts (li : lc_info) (lc0' : lc_conf) (src : Source) : UseOut :=
  let lc := promote lc0'
  if lc.opt_lines && lc.opt_words && lc.opt_bytes then
    let o := count_all li src
    ⟨{ o.li with lines_total := (o.li.lines_total + o.li.num_lines) % W64,
                 words_total := (o.li.words_total + o.li.num_words) % W64,
                 bytes_total := (o.li.bytes_total + o.li.num_bytes) % W64 },
      lc, [o.li.num_lines, o.li.num_words, o.li.num_bytes], o.closes⟩
  else if lc.opt_bytes && !lc.opt_lines && !lc.opt_words then
    let o := count_bytes li src
    ⟨{ o.li with bytes_total := (o.li.bytes_total + o.li.num_bytes) % W64 },
      lc, [o.li.num_bytes], o.closes⟩
  else if lc.opt_lines && !lc.opt_bytes && !lc.opt_words then
    let o := count_lines_and_bytes li src
    ⟨{ o.li with lines_total := (o.li.lines_total + o.li.num_lines) % W64 },
      lc, [o.li.num_lines], o.closes⟩
  else if lc.opt_lines && lc.opt_bytes && !lc.opt_words then
    let o := count_lines_and_bytes li src
    ⟨{ o.li with lines_total := (o.li.lines_total + o.li.num_lines) % W64,
                 bytes_total := (o.li.bytes_total + o.li.num_bytes) % W64 },
      lc, [o.li.num_lines, o.li.num_bytes], o.closes⟩
  else if lc.opt_words && !lc.opt_lines && !lc.opt_bytes then
    let o := count_words li src
    ⟨{ o.li with words_total := (o.li.words_total + o.li.num_words) % W64 },
      lc, [o.li.num_words], o.closes⟩
  else if lc.opt_lines && lc.opt_words && !lc.opt_bytes then
    let o := count_all li src
    ⟨{ o.li with lines_total := (o.li.lines_total + o.li.num_lines) % W64,
                 words_total := (o.li.words_total + o.li.num_words) % W64 },
      lc, [o.li.num_lines, o.li.num_words], o.closes⟩
  else if lc.opt_bytes && lc.opt_words && !lc.opt_lines then
    let o := count_all li src
    ⟨{ o.li with words_total := (o.li.words_total + o.li.num_words) % W64,
                 bytes_total := (o.li.bytes_total + o.li.num_bytes) % W64 },
      lc, [o.li.num_words, o.li.num_bytes], o.closes⟩
  else ⟨li, lc, [], 0⟩

/-- One line of standard output of the driver. -/
inductive Entry where
  | fileLine (fields : List Nat) (name : String)
  | stdinLine (fields : List Nat)
  | totalLine (fields : List Nat)
deriving DecidableEq, Repr

/-- Result of the driver: the process exit code, the lines written to
standard output (in order, flushed by `exit`), and the total number of
`close(fd)` calls performed (by the scanners and by the driver). -/
structure MainOut where
  code : Nat
  out : List Entry
  closes : Nat
deriving DecidableEq, Repr

/-- The per-file loop of `main`: each argument in turn is checked for a
bare `-` (usage error, exit non-zero), opened (open failure: exit
non-zero), scanned via `use_opts`, printed, and its descriptor closed by
the driver.  `fs` maps a file name to the source `open` yields for it
(`none` = open fails). -/
def main_files (li : lc_info) (lc : lc_conf) (fs : String → Option Source) :
    List String → MainOut × lc_info × lc_conf
  | [] => (⟨0, [], 0⟩, li, lc)
  | arg :: rest =>
    if arg = "-" then (⟨1, [], 0⟩, li, lc)
    else
      match fs arg with
      | none => (⟨1, [], 0⟩, li, lc)
      | some src =>
        let u := use_opts li lc src
        let r := main_files u.li u.lc fs rest
        (⟨r.1.code, Entry.fileLine u.fields arg :: r.1.out,
          u.closes + 1 + r.1.closes⟩, r.2.1, r.2.2)

/-- The `total` line printed after the loop, keyed on the option set
(the if-chain at the end of `main`). -/
def total_fields (lc : lc_conf) (li : lc_info) : List Nat :=
  if lc.opt_lines && lc.opt_words && !lc.opt_bytes then
    [li.lines_total, li.words_total]
  else if lc.opt_lines && !lc.opt_words && !lc.opt_bytes then
    [li.lines_total]
  else if !lc.opt_lines && lc.opt_words && lc.opt_bytes then
    [li.words_total, li.bytes_total]
  else if !lc.opt_lines && !lc.opt_words && lc.opt_bytes then
    [li.bytes_total]
  else if lc.opt_lines && !lc.opt_words && lc.opt_bytes then
    [li.lines_total, li.bytes_total]
  else if !lc.opt_lines && lc.opt_words && !lc.opt_bytes then
    [li.words_total]
  else
    [li.lines_total, li.words_total, li.bytes_total]

/-- `main` after flag parsing: with no file argument scan standard input
once; otherwise run the per-file loop and, when more than one argument
was given and the loop completed, append the `total` line. -/
def lc_main (lc : lc_conf) (fs : String → Option Source)
    (args : List String) (stdin : Source) : MainOut :=
  if args.isEmpty then
    let u := use_opts lc0 lc stdin
    ⟨0, [Entry.stdinLine u.fields], u.closes + 1⟩
  else
    let r := main_files lc0 lc fs args
    if r.1.code == 0 && 1 < args.length then
      ⟨r.1.code, r.1.out ++ [Entry.totalLine (total_fields r.2.2 r.2.1)],
        r.1.closes⟩
    else r.1

/-! ## Facts about the decoder model -/

theorem grabConts_got {k : Nat} {l t r : List Nat} (h : grabConts k l = .got t r) :
    l = t ++ r ∧ t.length = k ∧ ∀ c ∈ t, utf8_cont c = true := by
  induction k generalizing l t with
  | zero =>
    simp only [grabConts] at h
    cases h
    simp
  | succ k ih =>
    cases l with
    | nil => simp [grabConts] at h
    | cons b rest =>
      simp only [grabConts] at h
      by_cases hc : utf8_cont b
      · simp only [hc, if_true] at h
        cases hg : grabConts k rest with
        | got t' r' =>
          rw [hg] at h
          cases h
          obtain ⟨h1, h2, h3⟩ := ih hg
          refine ⟨by simp [h1], by simp [h2], ?_⟩
          intro c hcmem
          rcases List.mem_cons.mp hcmem with rfl | hmem
          · exact hc
          · exact h3 c hmem
        | bad => rw [hg] at h; cases h
        | short t' => rw [hg] at h; cases h
      · simp [hc] at h

theorem grabConts_short {k : Nat} {l t : List Nat} (h : grabConts k l = .short t) :
    t = l ∧ l.length < k ∧ ∀ c ∈ l, utf8_cont c = true := by
  induction k generalizing l t with
  | zero => simp only [grabConts] at h; cases h
  | succ k ih =>
    cases l with
    | nil =>
      simp only [grabConts] at h
      cases h
      simp
    | cons b rest =>
      simp only [grabConts] at h
      by_cases hc : utf8_cont b
      · simp only [hc, if_true] at h
        cases hg : grabConts k rest with
        | got t' r' => rw [hg] at h; cases h
        | bad => rw [hg] at h; cases h
        | short t' =>
          rw [hg] at h
          cases h
          obtain ⟨h1, h2, h3⟩ := ih hg
          subst h1
          refine ⟨rfl, by simp; omega, ?_⟩
          intro c hcmem
          rcases List.mem_cons.mp hcmem with rfl | hmem
          · exact hc
          · exact h3 c hmem
      · simp [hc] at h

theorem utf8_len_le_four (b : Nat) : utf8_len b ≤ 4 := by
  unfold utf8_len
  split_ifs <;> omega

theorem utf8_len_lead {b : Nat} (h : 2 ≤ utf8_len b) : 0xc2 ≤ b := by
  unfold utf8_len at h
  split_ifs at h <;> omega

theorem utf8_min_large {l : Nat} (h2 : 2 ≤ l) (h4 : l ≤ 4) :
    0x80 ≤ utf8_min l := by
  interval_cases l <;> simp [utf8_min]

theorem utf8_cont_ne_nl {b : Nat} (h : utf8_cont b = true) : b ≠ 10 := by
  simp only [utf8_cont, Bool.and_eq_true, decide_eq_true_eq] at h
  omega

/-- Reachability invariant of the decoder state: the pending bytes are a
proper prefix of a valid UTF-8 sequence (a multibyte lead byte followed by
too few continuation bytes). -/
def wf_pending : List Nat → Bool
  | [] => true
  | b :: rest =>
    decide (2 ≤ utf8_len b) && decide (rest.length + 2 ≤ utf8_len b) &&
      rest.all utf8_cont

theorem mbrtowc_ok_facts {st : mbstate_t} {b : Nat} {rest : List Nat}
    {v k : Nat} {st' : mbstate_t}
    (hwf : wf_pending st.pending = true)
    (h : utf8_mbrtowc st (b :: rest) = .ok v k st') :
    1 ≤ k ∧ k ≤ rest.length + 1 ∧ st' = mbst0 ∧ (v = 10 ↔ b = 10) ∧
    ∀ c ∈ rest.take (k - 1), c ≠ 10 := by
  obtain ⟨p⟩ := st
  cases p with
  | nil =>
    simp only [utf8_mbrtowc] at h
    by_cases hl0 : utf8_len b == 0
    · simp [hl0] at h
    · by_cases hl1 : utf8_len b == 1
      · simp only [hl0, hl1, if_false, if_true, Bool.false_eq_true] at h
        cases h
        refine ⟨le_refl 1, by omega, rfl, Iff.rfl, by simp⟩
      · simp only [hl0, hl1, if_false, Bool.false_eq_true] at h
        have hl2 : 2 ≤ utf8_len b := by
          simp only [beq_iff_eq] at hl0 hl1
          omega
        cases hg : grabConts (utf8_len b - 1) rest with
        | bad => rw [hg] at h; cases h
        | short t => rw [hg] at h; cases h
        | got t r =>
          rw [hg] at h
          by_cases hv : utf8_val (b :: t) < utf8_min (utf8_len b)
          · simp [hv] at h
          · simp only [hv, if_false] at h
            cases h
            obtain ⟨h1, h2, h3⟩ := grabConts_got hg
            have hble : 0xc2 ≤ b := utf8_len_lead hl2
            have hvge : 0x80 ≤ utf8_val (b :: t) :=
              le_trans (utf8_min_large hl2 (utf8_len_le_four b)) (by omega)
            refine ⟨by omega, ?_, rfl, by constructor <;> omega, ?_⟩
            · subst h1
              simp only [List.length_append]
              omega
            · intro c hc
              subst h1
              rw [← h2, List.take_left] at hc
              exact utf8_cont_ne_nl (h3 c hc)
  | cons p0 ps =>
    simp only [wf_pending, Bool.and_eq_true, decide_eq_true_eq,
      List.all_eq_true] at hwf
    obtain ⟨⟨hwf1, hwf2⟩, hwf3⟩ := hwf
    simp only [utf8_mbrtowc] at h
    cases hg : grabConts (utf8_len p0 - (ps.length + 1)) (b :: rest) with
    | bad => rw [hg] at h; cases h
    | short t => rw [hg] at h; cases h
    | got t r =>
      simp only [hg, List.cons_append] at h
      split_ifs at h with hv
      cases h
      obtain ⟨h1, h2, h3⟩ := grabConts_got hg
      have hkpos : 1 ≤ utf8_len p0 - (ps.length + 1) := by omega
      have hvge : 0x80 ≤ utf8_val (p0 :: (ps ++ t)) :=
        le_trans (utf8_min_large hwf1 (utf8_len_le_four p0)) (by omega)
      cases t with
      | nil =>
        simp only [List.length_nil] at h2
        omega
      | cons t0 ts =>
        rw [List.cons_append] at h1
        injection h1 with hb hrest
        subst hb
        have hbcont : utf8_cont b = true := h3 b (by simp)
        have hbne : b ≠ 10 := utf8_cont_ne_nl hbcont
        simp only [List.length_cons] at h2
        refine ⟨hkpos, ?_, rfl, by constructor <;> (intro hx; omega), ?_⟩
        · subst hrest
          simp only [List.length_append]
          omega
        · intro c hc
          subst hrest
          rw [show utf8_len p0 - (ps.length + 1) - 1 = ts.length by omega,
            List.take_left] at hc
          exact utf8_cont_ne_nl (h3 c (by simp [hc]))

theorem mbrtowc_invalid_st {st : mbstate_t} {input : List Nat} {st' : mbstate_t}
    (h : utf8_mbrtowc st input = .invalid st') : st' = st := by
  obtain ⟨p⟩ := st
  cases p with
  | nil =>
    cases input with
    | nil => simp [utf8_mbrtowc] at h
    | cons b rest =>
      simp only [utf8_mbrtowc] at h
      by_cases hl0 : utf8_len b == 0
      · simp only [hl0, if_true] at h; cases h; rfl
      · by_cases hl1 : utf8_len b == 1
        · simp [hl0, hl1] at h
        · simp only [hl0, hl1, if_false, Bool.false_eq_true] at h
          cases hg : grabConts (utf8_len b - 1) rest with
          | bad => rw [hg] at h; cases h; rfl
          | short t => rw [hg] at h; cases h
          | got t r =>
            rw [hg] at h
            by_cases hv : utf8_val (b :: t) < utf8_min (utf8_len b)
            · simp only [hv, if_true] at h; cases h; rfl
            · simp [hv] at h
  | cons p0 ps =>
    simp only [utf8_mbrtowc] at h
    cases hg : grabConts (utf8_len p0 - (ps.length + 1)) input with
    | bad => rw [hg] at h; cases h; rfl
    | short t => rw [hg] at h; cases h
    | got t r =>
      simp only [hg, List.cons_append] at h
      split_ifs at h with hv
      cases h
      rfl

theorem mbrtowc_incomplete_wf {st : mbstate_t} {b : Nat} {rest : List Nat}
    {st' : mbstate_t}
    (hwf : wf_pending st.pending = true)
    (h : utf8_mbrtowc st (b :: rest) = .incomplete st') :
    wf_pending st'.pending = true := by
  obtain ⟨p⟩ := st
  cases p with
  | nil =>
    simp only [utf8_mbrtowc] at h
    by_cases hl0 : utf8_len b == 0
    · simp [hl0] at h
    · by_cases hl1 : utf8_len b == 1
      · simp [hl0, hl1] at h
      · simp only [hl0, hl1, if_false, Bool.false_eq_true] at h
        have hl2 : 2 ≤ utf8_len b := by
          simp only [beq_iff_eq] at hl0 hl1
          omega
        cases hg : grabConts (utf8_len b - 1) rest with
        | bad => rw [hg] at h; cases h
        | got t r =>
          rw [hg] at h
          by_cases hv : utf8_val (b :: t) < utf8_min (utf8_len b)
          · simp [hv] at h
          · simp [hv] at h
        | short t =>
          rw [hg] at h
          cases h
          obtain ⟨h1, h2, h3⟩ := grabConts_short hg
          subst h1
          simp only [wf_pending, Bool.and_eq_true, decide_eq_true_eq,
            List.all_eq_true]
          exact ⟨⟨hl2, by omega⟩, fun c hc => h3 c hc⟩
  | cons p0 ps =>
    simp only [wf_pending, Bool.and_eq_true, decide_eq_true_eq,
      List.all_eq_true] at hwf
    obtain ⟨⟨hwf1, hwf2⟩, hwf3⟩ := hwf
    simp only [utf8_mbrtowc] at h
    cases hg : grabConts (utf8_len p0 - (ps.length + 1)) (b :: rest) with
    | bad => rw [hg] at h; cases h
    | got t r =>
      simp only [hg, List.cons_append] at h
      split_ifs at h with hv
    | short t =>
      rw [hg] at h
      cases h
      obtain ⟨h1, h2, h3⟩ := grabConts_short hg
      subst h1
      simp only [wf_pending, List.cons_append, Bool.and_eq_true,
        decide_eq_true_eq, List.all_eq_true]
      refine ⟨⟨hwf1, ?_⟩, ?_⟩
      · simp only [List.length_append, List.length_cons] at *
        omega
      · intro c hc
        rcases List.mem_append.mp hc with hmem | hmem
        · exact hwf3 c hmem
        · exact h3 c hmem

/-- Combined description of one decode step of the scanners: from a
reachable decoder state the step consumes between `1` and `n` bytes,
leaves a reachable state, classifies the head byte as a newline exactly
when it is one, and never skips over a newline byte. -/
theorem mb_consume_facts {st : mbstate_t} {b : Nat} {rest : List Nat}
    {pwc k : Nat} {st' : mbstate_t}
    (hwf : wf_pending st.pending = true)
    (h : mb_consume st b rest = (pwc, k, st')) :
    1 ≤ k ∧ k ≤ rest.length + 1 ∧ wf_pending st'.pending = true ∧
    (pwc = 10 ↔ b = 10) ∧ ∀ c ∈ rest.take (k - 1), c ≠ 10 := by
  unfold mb_consume at h
  cases hm : utf8_mbrtowc st (b :: rest) with
  | ok v k' st'' =>
    rw [hm] at h
    cases h
    obtain ⟨h1, h2, h3, h4, h5⟩ := mbrtowc_ok_facts hwf hm
    subst h3
    exact ⟨h1, h2, rfl, h4, h5⟩
  | invalid st'' =>
    rw [hm] at h
    cases h
    have := mbrtowc_invalid_st hm
    subst this
    exact ⟨le_refl 1, by omega, hwf, Iff.rfl, by simp⟩
  | incomplete st'' =>
    rw [hm] at h
    cases h
    exact ⟨le_refl 1, by omega, mbrtowc_incomplete_wf hwf hm, Iff.rfl, by simp⟩

/-! ## Line counting: every strategy counts exactly the `0x0A` bytes -/

theorem W64_pos : 0 < W64 := by norm_num [W64]

theorem isEmpty_false_of_ne {α : Type} {l : List α} (h : l ≠ []) :
    l.isEmpty = false := by
  cases l
  · exact absurd rfl h
  · rfl

/-- What one `count_all` loop iteration does to the line counter: it is
incremented (mod `2^64`) exactly when the byte at the cursor is `0x0A`,
the decoder state stays reachable, and the bytes skipped by a multibyte
advance contain no `0x0A`. -/
theorem ca_step_facts (st : mbstate_t) (hs : Bool) (lines words : Nat)
    (b : Nat) (rest : List Nat) (hwf : wf_pending st.pending = true) :
    (ca_step st hs lines words b rest).1.lines =
      (if b = 10 then (lines + 1) % W64 else lines) ∧
    wf_pending (ca_step st hs lines words b rest).1.st.pending = true ∧
    (ca_step st hs lines words b rest).2 ≤ rest.length + 1 ∧
    ((rest.take ((ca_step st hs lines words b rest).2 - 1)).count 10 = 0) := by
  by_cases hfast : (is_ascii b && is_print b) = true
  · have hb : b ≠ 10 := by
      simp only [is_ascii, is_print, Bool.and_eq_true, decide_eq_true_eq] at hfast
      omega
    unfold ca_step
    rw [if_pos hfast]
    split_ifs with h1 h2 h3
    · exact ⟨by simp [hb], hwf, by omega, by simp⟩
    · exact ⟨by simp [hb], hwf, by omega, by simp⟩
    · exact absurd (by simpa using h3) hb
    · exact ⟨by simp [hb], hwf, by omega, by simp⟩
  · rcases hr : mb_consume st b rest with ⟨pwc, k, st'⟩
    obtain ⟨hk1, hk2, hwf', hiff, htake⟩ := mb_consume_facts hwf hr
    have hcnt : (rest.take (k - 1)).count 10 = 0 :=
      List.count_eq_zero.mpr (fun hmem => htake 10 hmem rfl)
    have hlines : (if pwc == 10 then (lines + 1) % W64 else lines) =
        (if b = 10 then (lines + 1) % W64 else lines) := by
      by_cases hbb : b = 10
      · rw [if_pos hbb, if_pos (by simpa using hiff.mpr hbb)]
      · rw [if_neg hbb, if_neg (by simpa using fun hp => hbb (hiff.mp hp))]
    unfold ca_step
    rw [if_neg hfast]
    simp only [hr]
    rw [hlines]
    split_ifs with h1 h2 h3 <;> exact ⟨rfl, hwf', hk2, hcnt⟩

/-- Over a whole read buffer, `count_all` adds the buffer's `0x0A` count
to the line counter (mod `2^64`) and keeps the decoder state reachable. -/
theorem count_all_chunk_facts :
    ∀ (n : Nat) (chunk : List Nat) (st : mbstate_t) (hs : Bool)
      (lines words : Nat),
      chunk.length ≤ n → wf_pending st.pending = true → lines < W64 →
      (count_all_chunk st hs lines words chunk).lines =
        (lines + chunk.count 10) % W64 ∧
      wf_pending (count_all_chunk st hs lines words chunk).st.pending = true := by
  intro n
  induction n with
  | zero =>
    intro chunk st hs lines words hlen hwf hl
    have : chunk = [] := List.length_eq_zero.mp (Nat.le_zero.mp hlen)
    subst this
    simpa [count_all_chunk, Nat.mod_eq_of_lt hl] using hwf
  | succ n ih =>
    intro chunk st hs lines words hlen hwf hl
    cases chunk with
    | nil => simpa [count_all_chunk, Nat.mod_eq_of_lt hl] using hwf
    | cons b rest =>
      obtain ⟨hsl, hswf, hsk, hscnt⟩ := ca_step_facts st hs lines words b rest hwf
      have hlt' : (ca_step st hs lines words b rest).1.lines < W64 := by
        rw [hsl]
        split_ifs
        · exact Nat.mod_lt _ W64_pos
        · exact hl
      have hlen' :
          (rest.drop ((ca_step st hs lines words b rest).2 - 1)).length ≤ n := by
        simp only [List.length_drop]
        simp only [List.length_cons] at hlen
        omega
      obtain ⟨ih1, ih2⟩ := ih (rest.drop ((ca_step st hs lines words b rest).2 - 1))
        (ca_step st hs lines words b rest).1.st
        (ca_step st hs lines words b rest).1.hs
        (ca_step st hs lines words b rest).1.lines
        (ca_step st hs lines words b rest).1.words hlen' hswf hlt'
      have hsplit : rest.count 10 =
          (rest.take ((ca_step st hs lines words b rest).2 - 1)).count 10 +
          (rest.drop ((ca_step st hs lines words b rest).2 - 1)).count 10 := by
        conv_lhs => rw [← List.take_append_drop
          ((ca_step st hs lines words b rest).2 - 1) rest]
        rw [List.count_append]
      refine ⟨?_, by simpa [count_all_chunk] using ih2⟩
      simp only [count_all_chunk]
      rw [ih1, hsl, List.count_cons]
      by_cases hb : b = 10
      · rw [if_pos hb, Nat.mod_add_mod]
        have h1 : (if b == 10 then 1 else 0) = 1 := by simp [hb]
        rw [h1]
        have h2 : lines + 1 +
            (rest.drop ((ca_step st hs lines words b rest).2 - 1)).count 10 =
            lines + (rest.count 10 + 1) := by
          rw [hsplit, hscnt]
          omega
        rw [h2]
      · rw [if_neg hb]
        have h1 : (if b == 10 then 1 else 0) = 0 := by simp [hb]
        rw [h1]
        have h2 : lines +
            (rest.drop ((ca_step st hs lines words b rest).2 - 1)).count 10 =
            lines + (rest.count 10 + 0) := by
          rw [hsplit, hscnt]
          omega
        rw [h2]

/-- Over the whole read loop of `count_all` (error-free reads of nonempty
chunks), the line counter accumulates the `0x0A` count of the stream and
the byte sum accumulates the read lengths, both mod `2^64`. -/
theorem count_all_loop_facts :
    ∀ (chunks : List (List Nat)) (st : mbstate_t) (hs : Bool)
      (lines words sum : Nat),
      (∀ c ∈ chunks, c ≠ []) → wf_pending st.pending = true →
      lines < W64 → sum < W64 →
      (count_all_loop st hs lines words sum (chunks.map some)).lines =
        (lines + chunks.flatten.count 10) % W64 ∧
      (count_all_loop st hs lines words sum (chunks.map some)).sum =
        (sum + (chunks.map List.length).sum) % W64 := by
  intro chunks
  induction chunks with
  | nil =>
    intro st hs lines words sum hne hwf hl hsum
    simp [count_all_loop, Nat.mod_eq_of_lt hl, Nat.mod_eq_of_lt hsum]
  | cons c cs ih =>
    intro st hs lines words sum hne hwf hl hsum
    have hc : c ≠ [] := hne c (by simp)
    obtain ⟨hca_lines, hca_wf⟩ :=
      count_all_chunk_facts c.length c st hs lines words le_rfl hwf hl
    have hca_lt : (count_all_chunk st hs lines words c).lines < W64 := by
      rw [hca_lines]; exact Nat.mod_lt _ W64_pos
    have hsum' : (sum + c.length) % W64 < W64 := Nat.mod_lt _ W64_pos
    obtain ⟨ih1, ih2⟩ := ih (count_all_chunk st hs lines words c).st
      (count_all_chunk st hs lines words c).hs
      (count_all_chunk st hs lines words c).lines
      (count_all_chunk st hs lines words c).words
      ((sum + c.length) % W64)
      (fun d hd => hne d (by simp [hd])) hca_wf hca_lt hsum'
    simp only [List.map_cons, count_all_loop, isEmpty_false_of_ne hc,
      Bool.false_eq_true, if_false]
    constructor
    · rw [ih1, hca_lines, Nat.mod_add_mod, List.flatten_cons, List.count_append]
      have : lines + c.count 10 + cs.flatten.count 10 =
          lines + (c.count 10 + cs.flatten.count 10) := by omega
      rw [this]
    · rw [ih2, Nat.mod_add_mod, List.sum_cons]
      have : sum + c.length + (cs.map List.length).sum =
          sum + (c.length + (cs.map List.length).sum) := by omega
      rw [this]

/-- The byte-at-a-time block counter of `count_lines_and_bytes` adds the
block's `0x0A` count, mod `2^64`. -/
theorem clb_chunk_short_eq :
    ∀ (chunk : List Nat) (lines : Nat), lines < W64 →
      clb_chunk_short lines chunk = (lines + chunk.count 10) % W64 := by
  intro chunk
  induction chunk with
  | nil => intro lines hl; simp [clb_chunk_short, Nat.mod_eq_of_lt hl]
  | cons b rest ih =>
    intro lines hl
    simp only [clb_chunk_short]
    by_cases hb : b = 10
    · rw [if_pos (by simpa using hb), ih _ (Nat.mod_lt _ W64_pos),
        Nat.mod_add_mod, List.count_cons]
      have h1 : (if b == 10 then 1 else 0) = 1 := by simp [hb]
      rw [h1]
      have h2 : lines + 1 + rest.count 10 = lines + (rest.count 10 + 1) := by
        omega
      rw [h2]
    · rw [if_neg (by simpa using hb), ih _ hl, List.count_cons]
      have h1 : (if b == 10 then 1 else 0) = 0 := by simp [hb]
      rw [h1, Nat.add_zero]

theorem clb_long_loop_cons_ne {b : Nat} (t : List Nat) (lines : Nat)
    (hb : b ≠ 10) :
    clb_long_loop lines (b :: t) = clb_long_loop lines t := by
  cases hm : memchr_nl t with
  | none =>
    have hm' : memchr_nl (b :: t) = none := by simp [memchr_nl, hb, hm]
    rw [clb_long_loop.eq_def, clb_long_loop.eq_def]
    simp only [hm, hm']
  | some j =>
    have hm' : memchr_nl (b :: t) = some (j + 1) := by simp [memchr_nl, hb, hm]
    rw [clb_long_loop.eq_def, clb_long_loop.eq_def]
    simp only [hm, hm', List.length_cons, List.drop_succ_cons]
    by_cases hj : j + 1 < t.length
    · rw [dif_pos (by omega), dif_pos hj]
    · rw [dif_neg (by omega), dif_neg hj]

/-- The sentinel `memchr` loop of `count_lines_and_bytes`, run over a
block followed by its sentinel newline, adds exactly the block's `0x0A`
count, mod `2^64`. -/
theorem clb_long_loop_eq :
    ∀ (chunk : List Nat) (lines : Nat), lines < W64 →
      clb_long_loop lines (chunk ++ [10]) = (lines + chunk.count 10) % W64 := by
  intro chunk
  induction chunk with
  | nil =>
    intro lines hl
    rw [clb_long_loop.eq_def]
    have hm : memchr_nl [10] = some 0 := by simp [memchr_nl]
    simp only [List.nil_append, hm, List.length_cons, List.length_nil]
    rw [dif_neg (by omega)]
    simp [Nat.mod_eq_of_lt hl]
  | cons b rest ih =>
    intro lines hl
    by_cases hb : b = 10
    · subst hb
      rw [clb_long_loop.eq_def]
      have hm : memchr_nl (10 :: (rest ++ [10])) = some 0 := by
        simp [memchr_nl]
      simp only [List.cons_append, hm, List.length_cons, List.drop_succ_cons,
        List.drop_zero]
      rw [dif_pos (by simp only [List.length_append, List.length_cons,
        List.length_nil]; omega), ih _ (Nat.mod_lt _ W64_pos),
        Nat.mod_add_mod, List.count_cons]
      have h1 : (if (10 : Nat) == 10 then 1 else 0) = 1 := by simp
      rw [h1]
      have h2 : lines + 1 + rest.count 10 = lines + (rest.count 10 + 1) := by
        omega
      rw [h2]
    · rw [show (b :: rest) ++ [10] = b :: (rest ++ [10]) from rfl,
        clb_long_loop_cons_ne _ _ hb, ih _ hl, List.count_cons]
      have h1 : (if b == 10 then 1 else 0) = 0 := by simp [hb]
      rw [h1, Nat.add_zero]

/-- Over the read loop of `count_lines_and_bytes` (error-free reads of
nonempty chunks), whatever the long-mode flag, the line counter
accumulates the `0x0A` count of the stream and the byte sum accumulates
the read lengths, both mod `2^64`. -/
theorem clb_loop_facts :
    ∀ (chunks : List (List Nat)) (el : Bool) (lines sum : Nat),
      (∀ c ∈ chunks, c ≠ []) → lines < W64 → sum < W64 →
      (clb_loop el lines sum (chunks.map some)).lines =
        (lines + chunks.flatten.count 10) % W64 ∧
      (clb_loop el lines sum (chunks.map some)).sum =
        (sum + (chunks.map List.length).sum) % W64 := by
  intro chunks
  induction chunks with
  | nil =>
    intro el lines sum hne hl hsum
    simp [clb_loop, Nat.mod_eq_of_lt hl, Nat.mod_eq_of_lt hsum]
  | cons c cs ih =>
    intro el lines sum hne hl hsum
    have hc : c ≠ [] := hne c (by simp)
    have hne' : ∀ d ∈ cs, d ≠ [] := fun d hd => hne d (by simp [hd])
    have hl' : (lines + c.count 10) % W64 < W64 := Nat.mod_lt _ W64_pos
    have hsum' : (sum + c.length) % W64 < W64 := Nat.mod_lt _ W64_pos
    have harith1 : lines + c.count 10 + cs.flatten.count 10 =
        lines + (c.count 10 + cs.flatten.count 10) := by omega
    have harith2 : sum + c.length + (cs.map List.length).sum =
        sum + (c.length + (cs.map List.length).sum) := by omega
    simp only [List.map_cons, clb_loop, isEmpty_false_of_ne hc,
      Bool.false_eq_true, if_false]
    by_cases hel : el
    · rw [if_pos hel]
      obtain ⟨ih1, ih2⟩ := ih true ((lines + c.count 10) % W64)
        ((sum + c.length) % W64) hne' hl' hsum'
      rw [clb_long_loop_eq c lines hl]
      constructor
      · rw [ih1, Nat.mod_add_mod, List.flatten_cons, List.count_append, harith1]
      · rw [ih2, Nat.mod_add_mod, List.sum_cons, harith2]
    · rw [if_neg hel]
      obtain ⟨ih1, ih2⟩ := ih (decide ((c.length * 6) % W64 ≤ lines))
        ((lines + c.count 10) % W64) ((sum + c.length) % W64) hne' hl' hsum'
      rw [clb_chunk_short_eq c lines hl]
      constructor
      · rw [ih1, Nat.mod_add_mod, List.flatten_cons, List.count_append, harith1]
      · rw [ih2, Nat.mod_add_mod, List.sum_cons, harith2]

/-- Same accumulation facts for the promotion-free variant. -/
theorem clb_loop_noLong_facts :
    ∀ (chunks : List (List Nat)) (lines sum : Nat),
      (∀ c ∈ chunks, c ≠ []) → lines < W64 → sum < W64 →
      (clb_loop_noLong lines sum (chunks.map some)).lines =
        (lines + chunks.flatten.count 10) % W64 ∧
      (clb_loop_noLong lines sum (chunks.map some)).sum =
        (sum + (chunks.map List.length).sum) % W64 := by
  intro chunks
  induction chunks with
  | nil =>
    intro lines sum hne hl hsum
    simp [clb_loop_noLong, Nat.mod_eq_of_lt hl, Nat.mod_eq_of_lt hsum]
  | cons c cs ih =>
    intro lines sum hne hl hsum
    have hc : c ≠ [] := hne c (by simp)
    obtain ⟨ih1, ih2⟩ := ih ((lines + c.count 10) % W64)
      ((sum + c.length) % W64) (fun d hd => hne d (by simp [hd]))
      (Nat.mod_lt _ W64_pos) (Nat.mod_lt _ W64_pos)
    simp only [List.map_cons, clb_loop_noLong, isEmpty_false_of_ne hc,
      Bool.false_eq_true, if_false]
    rw [clb_chunk_short_eq c lines hl]
    constructor
    · rw [ih1, Nat.mod_add_mod, List.flatten_cons, List.count_append]
      have : lines + c.count 10 + cs.flatten.count 10 =
          lines + (c.count 10 + cs.flatten.count 10) := by omega
      rw [this]
    · rw [ih2, Nat.mod_add_mod, List.sum_cons]
      have : sum + c.length + (cs.map List.length).sum =
          sum + (c.length + (cs.map List.length).sum) := by omega
      rw [this]

/-- C1: for every input byte stream (delivered as any sequence of
non-empty error-free reads) and every mode that requests LINES — the
strategies `COUNT_ALL` and `COUNT_LINES_AND_BYTES` — the reported
`num_lines` equals the number of `0x0A` bytes in the stream, never more
and never less; in particular `count_all` does count ASCII newlines
(they reach its multibyte branch, whose decoded `pwc == L'\n'` test
fires). -/
theorem c1_line_count (li : lc_info) (isr : Bool) (sz : Nat)
    (chunks : List (List Nat))
    (hne : ∀ c ∈ chunks, c ≠ [])
    (hlt : chunks.flatten.count 10 < W64) :
    (count_all li ⟨isr, sz, chunks.map some⟩).li.num_lines =
      chunks.flatten.count 10 ∧
    (count_lines_and_bytes li ⟨isr, sz, chunks.map some⟩).li.num_lines =
      chunks.flatten.count 10 := by
  have hwf0 : wf_pending mbst0.pending = true := rfl
  obtain ⟨hca, _⟩ := count_all_loop_facts chunks mbst0 true 0 0 0 hne hwf0
    W64_pos W64_pos
  obtain ⟨hclb, _⟩ := clb_loop_facts chunks false 0 0 hne W64_pos W64_pos
  constructor
  · simp only [count_all]
    rw [hca]
    simpa using Nat.mod_eq_of_lt hlt
  · simp only [count_lines_and_bytes]
    rw [hclb]
    simpa using Nat.mod_eq_of_lt hlt

/-- Witness for C1 at the concrete stream `"hello\n\n"` read in two
chunks: two newline bytes, two counted lines in both strategies. -/
theorem c1_line_count_witness :
    (count_all lc0 ⟨false, 0,
      [some [104, 101, 108, 108, 111, 10], some [10]]⟩).li.num_lines = 2 ∧
    (count_lines_and_bytes lc0 ⟨false, 0,
      [some [104, 101, 108, 108, 111, 10], some [10]]⟩).li.num_lines = 2 := by
  have h := c1_line_count lc0 false 0 [[104, 101, 108, 108, 111, 10], [10]]
    (by decide) (by decide)
  exact ⟨h.1.trans (by decide), h.2.trans (by decide)⟩

/-! ## Byte counting (C3), the long-mode refinement (C8), read errors
(C4) and the sentinel overrun (C5) -/

theorem count_bytes_loop_eq :
    ∀ (chunks : List (List Nat)) (nb : Nat),
      (∀ c ∈ chunks, c ≠ []) → nb < W64 →
      (count_bytes_loop nb (chunks.map some)).1 =
        (nb + (chunks.map List.length).sum) % W64 := by
  intro chunks
  induction chunks with
  | nil =>
    intro nb hne hnb
    simp [count_bytes_loop, Nat.mod_eq_of_lt hnb]
  | cons c cs ih =>
    intro nb hne hnb
    have hc : c ≠ [] := hne c (by simp)
    simp only [List.map_cons, count_bytes_loop, isEmpty_false_of_ne hc,
      Bool.false_eq_true, if_false]
    rw [ih _ (fun d hd => hne d (by simp [hd])) (Nat.mod_lt _ W64_pos),
      Nat.mod_add_mod, List.sum_cons]
    have : nb + c.length + (cs.map List.length).sum =
        nb + (c.length + (cs.map List.length).sum) := by omega
    rw [this]

/-- C3: with BYTES in the mode — the strategies `COUNT_BYTES_ONLY`,
`COUNT_LINES_AND_BYTES` (for LINES + BYTES) and `COUNT_ALL` — a regular
file of positive declared size `sz` reports `num_bytes = sz` regardless
of what the reads deliver; `COUNT_BYTES_ONLY` then issues no read at all;
and a non-regular source reports the sum of the delivered read lengths. -/
theorem c3_byte_count (li : lc_info) (sz sz' : Nat)
    (script : List (Option (List Nat))) (chunks : List (List Nat))
    (hpos : 0 < sz) (hlt : sz < W64)
    (hne : ∀ c ∈ chunks, c ≠ [])
    (hsum : (chunks.map List.length).sum < W64) :
    (count_bytes li ⟨true, sz, script⟩).li.num_bytes = sz ∧
    (count_bytes li ⟨true, sz, script⟩).nreads = 0 ∧
    (count_lines_and_bytes li ⟨true, sz, script⟩).li.num_bytes = sz ∧
    (count_all li ⟨true, sz, script⟩).li.num_bytes = sz ∧
    (count_bytes li ⟨false, sz', chunks.map some⟩).li.num_bytes =
      (chunks.map List.length).sum ∧
    (count_lines_and_bytes li ⟨false, sz', chunks.map some⟩).li.num_bytes =
      (chunks.map List.length).sum ∧
    (count_all li ⟨false, sz', chunks.map some⟩).li.num_bytes =
      (chunks.map List.length).sum := by
  have hmod : sz % W64 = sz := Nat.mod_eq_of_lt hlt
  have hne0 : sz ≠ 0 := by omega
  have hwf0 : wf_pending mbst0.pending = true := rfl
  obtain ⟨-, hca_sum⟩ := count_all_loop_facts chunks mbst0 true 0 0 0 hne hwf0
    W64_pos W64_pos
  obtain ⟨-, hclb_sum⟩ := clb_loop_facts chunks false 0 0 hne W64_pos W64_pos
  have hcb := count_bytes_loop_eq chunks 0 hne W64_pos
  refine ⟨?_, ?_, ?_, ?_, ?_, ?_, ?_⟩
  · simp [count_bytes, hpos, hmod]
  · simp [count_bytes, hpos]
  · simp [count_lines_and_bytes, hpos, hmod, hne0]
  · simp [count_all, hpos, hmod, hne0]
  · simp [count_bytes, hcb, Nat.mod_eq_of_lt hsum]
  · simp [count_lines_and_bytes, hclb_sum, Nat.mod_eq_of_lt hsum]
  · simp [count_all, hca_sum, Nat.mod_eq_of_lt hsum]

/-- Witness for C3 at a regular file of declared size 7 (no matter that a
read would deliver 3 bytes) and a pipe delivering 2 + 3 bytes. -/
theorem c3_byte_count_witness :
    (count_bytes lc0 ⟨true, 7, [some [97, 98, 99]]⟩).li.num_bytes = 7 ∧
    (count_bytes lc0 ⟨true, 7, [some [97, 98, 99]]⟩).nreads = 0 ∧
    (count_bytes lc0 ⟨false, 0, [some [97, 98], some [99, 100, 101]]⟩).li.num_bytes
      = 5 := by
  have h := c3_byte_count lc0 7 0 [some [97, 98, 99]] [[97, 98], [99, 100, 101]]
    (by decide) (by decide) (by decide) (by decide)
  exact ⟨h.1, h.2.1, (h.2.2.2.2.1).trans (by decide)⟩

/-- C8: the `long_mode` promotion of `COUNT_LINES_AND_BYTES` never
changes the reported line and byte counts — the scan with the heuristic
equals the promotion-free byte-at-a-time scan on every error-free input
stream. -/
theorem c8_long_mode_equiv (li : lc_info) (isr : Bool) (sz : Nat)
    (chunks : List (List Nat)) (hne : ∀ c ∈ chunks, c ≠ []) :
    (count_lines_and_bytes li ⟨isr, sz, chunks.map some⟩).li.num_lines =
      (count_lines_and_bytes_noLong li ⟨isr, sz, chunks.map some⟩).li.num_lines ∧
    (count_lines_and_bytes li ⟨isr, sz, chunks.map some⟩).li.num_bytes =
      (count_lines_and_bytes_noLong li ⟨isr, sz, chunks.map some⟩).li.num_bytes := by
  obtain ⟨h1, h2⟩ := clb_loop_facts chunks false 0 0 hne W64_pos W64_pos
  obtain ⟨h1', h2'⟩ := clb_loop_noLong_facts chunks 0 0 hne W64_pos W64_pos
  constructor
  · simp only [count_lines_and_bytes, count_lines_and_bytes_noLong]
    rw [h1, h1']
  · simp only [count_lines_and_bytes, count_lines_and_bytes_noLong]
    rw [h2, h2']

/-- Witness for C8 on the stream `"a\nb"` + `"\n\n"`: dense enough that
the promotion predicate becomes true mid-scan on longer variants; here
both variants report 3 lines and 5 bytes. -/
theorem c8_long_mode_equiv_witness :
    (count_lines_and_bytes lc0 ⟨false, 0,
      [some [97, 10, 98], some [10, 10]]⟩).li.num_lines =
      (count_lines_and_bytes_noLong lc0 ⟨false, 0,
        [some [97, 10, 98], some [10, 10]]⟩).li.num_lines ∧
    (count_lines_and_bytes lc0 ⟨false, 0,
      [some [97, 10, 98], some [10, 10]]⟩).li.num_bytes =
      (count_lines_and_bytes_noLong lc0 ⟨false, 0,
        [some [97, 10, 98], some [10, 10]]⟩).li.num_bytes ∧
    (count_lines_and_bytes lc0 ⟨false, 0,
      [some [97, 10, 98], some [10, 10]]⟩).li.num_lines = 3 := by
  have h := c8_long_mode_equiv lc0 false 0 [[97, 10, 98], [10, 10]] (by decide)
  exact ⟨h.1, h.2, by decide⟩

/-- C4 fails on the code: no scanner checks `read` for failure.  A read
returning `(ssize_t)-1` passes the `!= 0` loop guard, `(uintmax_t)(-1) =
2^64 - 1` is added to the byte counter of `COUNT_BYTES_ONLY`, and the
loop keeps issuing reads.  Concretely: a single failing read reports
`2^64 - 1` bytes, and a failing read followed by a successful 2-byte read
reports `1` byte after three `read` calls — the scan neither fails nor
stops. -/
theorem c4_read_error_counted_as_data :
    (count_bytes lc0 ⟨false, 0, [none]⟩).li.num_bytes = W64 - 1 ∧
    (count_bytes lc0 ⟨false, 0, [none, some [65, 66]]⟩).li.num_bytes = 1 ∧
    (count_bytes lc0 ⟨false, 0, [none, some [65, 66]]⟩).nreads = 3 := by
  refine ⟨?_, by decide, by decide⟩
  decide

/-- C5 fails on the code: when a read in long mode delivers a full block
of `MAXSIZE` bytes, the sentinel newline `*last = '\n'` is written at
buffer index `MAXSIZE` — one past the end of the `malloc(MAXSIZE)`
allocation, not strictly inside it.  The promotion is reachable: after
seven one-byte newline reads the predicate `bytes_read * 6 <= num_lines`
holds, and the eighth (full-size) read performs the out-of-bounds
sentinel write. -/
theorem c5_sentinel_write_out_of_bounds (c : List Nat)
    (hlen : c.length = MAXSIZE) :
    clb_sentinel_index MAXSIZE = clb_buf_alloc ∧
    ¬ clb_sentinel_index MAXSIZE < clb_buf_alloc ∧
    (count_lines_and_bytes lc0 ⟨false, 0,
      [some [10], some [10], some [10], some [10], some [10], some [10],
       some [10], some c]⟩).sentinels = [clb_sentinel_index MAXSIZE] := by
  have hc : c.isEmpty = false := by
    refine isEmpty_false_of_ne ?_
    intro h
    rw [h] at hlen
    exact absurd hlen.symm (by decide)
  refine ⟨rfl, by decide, ?_⟩
  simp [count_lines_and_bytes, clb_loop, clb_chunk_short, clb_sentinel_index,
    hc, hlen, W64]

/-- Witness for C5: a full-size read really exists — `MAXSIZE` repeated
bytes — and triggers the out-of-bounds sentinel write at index
`MAXSIZE`. -/
theorem c5_sentinel_write_out_of_bounds_witness :
    (List.replicate MAXSIZE (97 : Nat)).length = MAXSIZE ∧
    (count_lines_and_bytes lc0 ⟨false, 0,
      [some [10], some [10], some [10], some [10], some [10], some [10],
       some [10], some (List.replicate MAXSIZE 97)]⟩).sentinels =
      [clb_sentinel_index MAXSIZE] :=
  ⟨by simp, (c5_sentinel_write_out_of_bounds (List.replicate MAXSIZE 97)
    (by simp)).2.2⟩

/-! ## Word counting (C2): the scanners compute the number of maximal
runs of non-whitespace units -/

/-- The hs-flag, advance and decoder-state outputs of a `count_words`
iteration do not depend on the incoming `have_space` flag or word
counter: the produced flag is the classification of the scanned unit. -/
theorem cw_step_indep (st : mbstate_t) (hs : Bool) (w : Nat) (b : Nat)
    (rest : List Nat) :
    (cw_step st hs w b rest).1.st = (cw_step st true 0 b rest).1.st ∧
    (cw_step st hs w b rest).1.hs = (cw_step st true 0 b rest).1.hs ∧
    (cw_step st hs w b rest).2 = (cw_step st true 0 b rest).2 := by
  unfold cw_step
  by_cases h1 : (is_ascii b && is_print b) = true
  · rw [if_pos h1, if_pos h1]
    by_cases h2 : is_space b = true
    · rw [if_pos h2, if_pos h2]
      exact ⟨rfl, rfl, rfl⟩
    · rw [if_neg h2, if_neg h2, if_pos rfl]
      by_cases h3 : hs = true
      · rw [if_pos h3]
        exact ⟨rfl, rfl, rfl⟩
      · rw [if_neg h3]
        refine ⟨rfl, ?_, rfl⟩
        simp [show hs = false from by simpa using h3]
  · rw [if_neg h1, if_neg h1]
    by_cases h4 : iswspace (mb_consume st b rest).1 = true
    · rw [if_pos h4, if_pos h4]
      exact ⟨rfl, rfl, rfl⟩
    · rw [if_neg h4, if_neg h4, if_pos rfl]
      by_cases h5 : hs = true
      · rw [if_pos h5]
        exact ⟨rfl, rfl, rfl⟩
      · rw [if_neg h5]
        exact ⟨rfl, rfl, rfl⟩

/-- The word-counter output of a `count_words` iteration: unchanged on a
whitespace unit, incremented (mod `2^64`) exactly when a non-whitespace
unit arrives while `have_space` is set. -/
theorem cw_step_words (st : mbstate_t) (hs : Bool) (w : Nat) (b : Nat)
    (rest : List Nat) :
    (cw_step st hs w b rest).1.words =
      if (cw_step st true 0 b rest).1.hs then w
      else if hs then (w + 1) % W64 else w := by
  unfold cw_step
  by_cases h1 : (is_ascii b && is_print b) = true
  · rw [if_pos h1, if_pos h1]
    by_cases h2 : is_space b = true
    · rw [if_pos h2, if_pos h2]
      simp
    · rw [if_neg h2, if_neg h2, if_pos rfl]
      by_cases h3 : hs = true
      · rw [if_pos h3]
        simp [h3]
      · rw [if_neg h3]
        simp [show hs = false from by simpa using h3]
  · rw [if_neg h1, if_neg h1]
    by_cases h4 : iswspace (mb_consume st b rest).1 = true
    · rw [if_pos h4, if_pos h4]
      simp
    · rw [if_neg h4, if_neg h4, if_pos rfl]
      by_cases h5 : hs = true
      · rw [if_pos h5]
        simp [h5]
      · rw [if_neg h5]
        simp [show hs = false from by simpa using h5]

/-- A `count_all` iteration agrees with the `count_words` iteration on
the decoder state, the `have_space` flag, the word counter and the
advance (the two inner loops differ only in line counting). -/
theorem ca_cw_step_agree (st : mbstate_t) (hs : Bool) (lines words : Nat)
    (b : Nat) (rest : List Nat) :
    (ca_step st hs lines words b rest).1.st = (cw_step st hs words b rest).1.st ∧
    (ca_step st hs lines words b rest).1.hs = (cw_step st hs words b rest).1.hs ∧
    (ca_step st hs lines words b rest).1.words =
      (cw_step st hs words b rest).1.words ∧
    (ca_step st hs lines words b rest).2 = (cw_step st hs words b rest).2 := by
  unfold ca_step cw_step
  by_cases h1 : (is_ascii b && is_print b) = true
  · rw [if_pos h1, if_pos h1]
    by_cases h2 : is_space b = true
    · rw [if_pos h2, if_pos h2]
      exact ⟨rfl, rfl, rfl, rfl⟩
    · rw [if_neg h2, if_neg h2]
      by_cases h3 : hs = true
      · rw [if_pos h3, if_pos h3]
        exact ⟨rfl, rfl, rfl, rfl⟩
      · rw [if_neg h3, if_neg h3]
        by_cases h4 : (b == 10) = true
        · rw [if_pos h4]
          exact ⟨rfl, rfl, rfl, rfl⟩
        · rw [if_neg h4]
          exact ⟨rfl, rfl, rfl, rfl⟩
  · rw [if_neg h1, if_neg h1]
    by_cases h5 : iswspace (mb_consume st b rest).1 = true
    · rw [if_pos h5, if_pos h5]
      exact ⟨rfl, rfl, rfl, rfl⟩
    · rw [if_neg h5, if_neg h5]
      by_cases h6 : hs = true
      · rw [if_pos h6, if_pos h6]
        exact ⟨rfl, rfl, rfl, rfl⟩
      · rw [if_neg h6, if_neg h6]
        exact ⟨rfl, rfl, rfl, rfl⟩

/-- The sequence of whitespace classifications ("units") the scanner
produces for one read buffer: the spec-side code-point sequence the word
state machine runs over, extracted by the same walk (ASCII fast path or
multibyte decode) the scanners perform. -/
def units_chunk (st : mbstate_t) : List Nat → List Bool × mbstate_t
  | [] => ([], st)
  | b :: rest =>
    let s := cw_step st true 0 b rest
    let o := units_chunk s.1.st (rest.drop (s.2 - 1))
    (s.1.hs :: o.1, o.2)
termination_by l => l.length
decreasing_by
  simp only [List.length_cons, List.length_drop]
  omega

/-- The unit sequence of a whole scan (the reads threaded through the
persistent decoder state). -/
def units_script (st : mbstate_t) : List (Option (List Nat)) → List Bool
  | [] => []
  | some chunk :: rest =>
    if chunk.isEmpty then []
    else (units_chunk st chunk).1 ++ units_script (units_chunk st chunk).2 rest
  | none :: rest => units_script st rest

/-- The word-segmentation state machine of the specification (state
IN_SPACE = `true`, IN_WORD = `false`): returns the final state and the
number of IN_SPACE → IN_WORD transitions. -/
def wm_run (hs : Bool) : List Bool → Bool × Nat
  | [] => (hs, 0)
  | u :: us =>
    if u then wm_run true us
    else
      let o := wm_run false us
      if hs then (o.1, o.2 + 1) else o

theorem length_dropWhile_le_self {α : Type} (p : α → Bool) (l : List α) :
    (l.dropWhile p).length ≤ l.length := by
  induction l with
  | nil => simp
  | cons x l ih =>
    rw [List.dropWhile_cons]
    split_ifs
    · exact le_trans ih (by simp)
    · simp

/-- Number of maximal runs of `false` (non-whitespace) units: each run is
counted at its head and skipped. -/
def runCount : List Bool → Nat
  | [] => 0
  | true :: rest => runCount rest
  | false :: rest => 1 + runCount (rest.dropWhile (fun u => u == false))
termination_by l => l.length
decreasing_by
  all_goals simp only [List.length_cons]
  all_goals have h := length_dropWhile_le_self (fun u => u == false) rest
  all_goals omega

/-- The transition count of the word state machine equals the number of
maximal non-whitespace runs (the runs already entered when starting in
IN_WORD are not counted). -/
theorem wm_run_count_eq :
    ∀ (us : List Bool) (hs : Bool),
      (wm_run hs us).2 =
        runCount (if hs then us else us.dropWhile (fun u => u == false)) := by
  intro us
  induction us with
  | nil =>
    intro hs
    cases hs <;> simp [wm_run, runCount, List.dropWhile_nil]
  | cons u us' ih =>
    intro hs
    cases u with
    | true =>
      have h1 : wm_run hs (true :: us') = wm_run true us' := by
        cases hs <;> simp [wm_run]
      rw [h1, ih true]
      have h2 : (true :: us').dropWhile (fun u => u == false) = true :: us' := by
        simp [List.dropWhile_cons]
      cases hs <;> simp [h2, runCount, ih true]
    | false =>
      have h2 : (false :: us').dropWhile (fun u => u == false) =
          us'.dropWhile (fun u => u == false) := by
        simp [List.dropWhile_cons]
      cases hs with
      | true =>
        simp only [wm_run, if_true, if_pos rfl]
        have : runCount (false :: us') =
            1 + runCount (us'.dropWhile (fun u => u == false)) := by
          simp [runCount]
        simp only [if_pos rfl] at *
        rw [show (wm_run false us').2 + 1 =
          1 + (wm_run false us').2 by omega, ih false]
        simp [runCount]
      | false =>
        simp only [wm_run]
        rw [show ((if false = true then wm_run true us'
          else if false = true then ((wm_run false us').1, (wm_run false us').2 + 1)
          else wm_run false us')) = wm_run false us' by simp]
        rw [ih false]
        simp [h2]

/-- Appending trailing whitespace units never adds a run: a scan ending
in whitespace reports no phantom word. -/
theorem runCount_append_true :
    ∀ (n : Nat) (us : List Bool), us.length ≤ n →
      runCount (us ++ [true]) = runCount us := by
  intro n
  induction n with
  | zero =>
    intro us hlen
    have : us = [] := List.length_eq_zero.mp (Nat.le_zero.mp hlen)
    subst this
    simp [runCount]
  | succ n ih =>
    intro us hlen
    cases us with
    | nil => simp [runCount]
    | cons u us' =>
      cases u with
      | true =>
        simp only [List.cons_append, runCount]
        exact ih us' (by simp only [List.length_cons] at hlen; omega)
      | false =>
        simp only [List.cons_append, runCount]
        rw [List.dropWhile_append]
        by_cases hemp : (us'.dropWhile (fun u => u == false)).isEmpty = true
        · rw [if_pos hemp]
          have h1 : us'.dropWhile (fun u => u == false) = [] :=
            List.isEmpty_iff.mp hemp
          rw [h1]
          simp [List.dropWhile_cons, runCount]
        · rw [if_neg hemp]
          have hsub := length_dropWhile_le_self (fun u => u == false) us'
          simp only [List.length_cons] at hlen
          rw [ih (us'.dropWhile (fun u => u == false)) (by omega)]

/-- `count_words` over one read buffer computes the word state machine
over the buffer's unit sequence (counter mod `2^64`) and threads the same
decoder state. -/
theorem count_words_chunk_eq :
    ∀ (n : Nat) (chunk : List Nat) (st : mbstate_t) (hs : Bool) (w : Nat),
      chunk.length ≤ n → w < W64 →
      (count_words_chunk st hs w chunk).st = (units_chunk st chunk).2 ∧
      (count_words_chunk st hs w chunk).hs =
        (wm_run hs (units_chunk st chunk).1).1 ∧
      (count_words_chunk st hs w chunk).words =
        (w + (wm_run hs (units_chunk st chunk).1).2) % W64 := by
  intro n
  induction n with
  | zero =>
    intro chunk st hs w hlen hw
    have : chunk = [] := List.length_eq_zero.mp (Nat.le_zero.mp hlen)
    subst this
    simp [count_words_chunk, units_chunk, wm_run, Nat.mod_eq_of_lt hw]
  | succ n ih =>
    intro chunk st hs w hlen hw
    cases chunk with
    | nil => simp [count_words_chunk, units_chunk, wm_run, Nat.mod_eq_of_lt hw]
    | cons b rest =>
      obtain ⟨hi1, hi2, hi3⟩ := cw_step_indep st hs w b rest
      have hwords := cw_step_words st hs w b rest
      have hlen' : (rest.drop ((cw_step st true 0 b rest).2 - 1)).length ≤ n := by
        simp only [List.length_drop]
        simp only [List.length_cons] at hlen
        omega
      simp only [count_words_chunk, units_chunk]
      rw [hi1, hi3]
      by_cases hu : (cw_step st true 0 b rest).1.hs = true
      · -- the unit is whitespace: have_space is set, the counter is kept
        have hws : (cw_step st hs w b rest).1.words = w := by
          rw [hwords, if_pos hu]
        have hhs2 : (cw_step st hs w b rest).1.hs = true := hi2.trans hu
        obtain ⟨e1, e2, e3⟩ := ih _ (cw_step st true 0 b rest).1.st true w
          hlen' hw
        rw [hws, hhs2, hu]
        refine ⟨e1, ?_, ?_⟩
        · rw [e2]
          simp [wm_run]
        · rw [e3]
          simp [wm_run]
      · -- the unit is a word byte: have_space clears, count if it was set
        have hu' : (cw_step st true 0 b rest).1.hs = false := by
          simpa using hu
        have hhs2 : (cw_step st hs w b rest).1.hs = false := hi2.trans hu'
        rw [hu', hhs2]
        by_cases hhs : hs = true
        · have hws : (cw_step st hs w b rest).1.words = (w + 1) % W64 := by
            rw [hwords, hu']
            simp [hhs]
          obtain ⟨e1, e2, e3⟩ := ih _ (cw_step st true 0 b rest).1.st false
            ((w + 1) % W64) hlen' (Nat.mod_lt _ W64_pos)
          rw [hws]
          refine ⟨e1, ?_, ?_⟩
          · rw [e2]
            simp [wm_run, hhs]
          · rw [e3, Nat.mod_add_mod]
            simp only [wm_run, Bool.false_eq_true, if_false, hhs, if_true]
            have harith : w + 1 + (wm_run false (units_chunk
                (cw_step st true 0 b rest).1.st
                (rest.drop ((cw_step st true 0 b rest).2 - 1))).1).2 =
              w + ((wm_run false (units_chunk
                (cw_step st true 0 b rest).1.st
                (rest.drop ((cw_step st true 0 b rest).2 - 1))).1).2 + 1) := by
              omega
            rw [harith]
        · have hhs' : hs = false := by simpa using hhs
          have hws : (cw_step st hs w b rest).1.words = w := by
            rw [hwords, hu']
            simp [hhs']
          obtain ⟨e1, e2, e3⟩ := ih _ (cw_step st true 0 b rest).1.st false w
            hlen' hw
          rw [hws]
          refine ⟨e1, ?_, ?_⟩
          · rw [e2]
            simp [wm_run, hhs']
          · rw [e3]
            simp [wm_run, hhs']

theorem wm_run_append_parts :
    ∀ (a b : List Bool) (hs : Bool),
      (wm_run hs (a ++ b)).1 = (wm_run (wm_run hs a).1 b).1 ∧
      (wm_run hs (a ++ b)).2 = (wm_run hs a).2 + (wm_run (wm_run hs a).1 b).2 := by
  intro a
  induction a with
  | nil =>
    intro b hs
    simp [wm_run]
  | cons u us ih =>
    intro b hs
    cases u with
    | true =>
      have h1 : ∀ (l : List Bool), wm_run hs (true :: l) = wm_run true l := by
        intro l
        simp [wm_run]
      rw [List.cons_append, h1, h1]
      exact ih b true
    | false =>
      have h1 : ∀ (l : List Bool), wm_run hs (false :: l) =
          (if hs then ((wm_run false l).1, (wm_run false l).2 + 1)
           else wm_run false l) := by
        intro l
        simp [wm_run]
      rw [List.cons_append, h1, h1]
      obtain ⟨e1, e2⟩ := ih b false
      by_cases hhs : hs = true
      · simp only [hhs, if_true, if_pos rfl]
        refine ⟨e1, ?_⟩
        rw [e2]
        omega
      · have hhs' : hs = false := by simpa using hhs
        simp only [hhs', Bool.false_eq_true, if_false]
        exact ⟨e1, e2⟩

/-- The read loop of `count_words` computes the word state machine over
the unit sequence of the whole scan. -/
theorem count_words_loop_eq :
    ∀ (chunks : List (List Nat)) (st : mbstate_t) (hs : Bool) (w : Nat),
      (∀ c ∈ chunks, c ≠ []) → w < W64 →
      (count_words_loop st hs w (chunks.map some)).1 =
        (w + (wm_run hs (units_script st (chunks.map some))).2) % W64 := by
  intro chunks
  induction chunks with
  | nil =>
    intro st hs w hne hw
    simp [count_words_loop, units_script, wm_run, Nat.mod_eq_of_lt hw]
  | cons c cs ih =>
    intro st hs w hne hw
    have hc : c ≠ [] := hne c (by simp)
    obtain ⟨e1, e2, e3⟩ := count_words_chunk_eq c.length c st hs w le_rfl hw
    simp only [List.map_cons, count_words_loop, units_script,
      isEmpty_false_of_ne hc, Bool.false_eq_true, if_false]
    rw [e1, e2, e3,
      ih (units_chunk st c).2 (wm_run hs (units_chunk st c).1).1
        ((w + (wm_run hs (units_chunk st c).1).2) % W64)
        (fun d hd => hne d (by simp [hd])) (Nat.mod_lt _ W64_pos),
      Nat.mod_add_mod]
    obtain ⟨-, a2⟩ := wm_run_append_parts (units_chunk st c).1
      (units_script (units_chunk st c).2 (cs.map some)) hs
    rw [a2]
    have : w + (wm_run hs (units_chunk st c).1).2 +
        (wm_run (wm_run hs (units_chunk st c).1).1
          (units_script (units_chunk st c).2 (cs.map some))).2 =
      w + ((wm_run hs (units_chunk st c).1).2 +
        (wm_run (wm_run hs (units_chunk st c).1).1
          (units_script (units_chunk st c).2 (cs.map some))).2) := by
      omega
    rw [this]

/-- `count_all` agrees with `count_words` on decoder state, `have_space`
and the word counter over one read buffer. -/
theorem count_all_chunk_words_eq :
    ∀ (n : Nat) (chunk : List Nat) (st : mbstate_t) (hs : Bool)
      (lines words : Nat), chunk.length ≤ n →
      (count_all_chunk st hs lines words chunk).st =
        (count_words_chunk st hs words chunk).st ∧
      (count_all_chunk st hs lines words chunk).hs =
        (count_words_chunk st hs words chunk).hs ∧
      (count_all_chunk st hs lines words chunk).words =
        (count_words_chunk st hs words chunk).words := by
  intro n
  induction n with
  | zero =>
    intro chunk st hs lines words hlen
    have : chunk = [] := List.length_eq_zero.mp (Nat.le_zero.mp hlen)
    subst this
    simp [count_all_chunk, count_words_chunk]
  | succ n ih =>
    intro chunk st hs lines words hlen
    cases chunk with
    | nil => simp [count_all_chunk, count_words_chunk]
    | cons b rest =>
      obtain ⟨a1, a2, a3, a4⟩ := ca_cw_step_agree st hs lines words b rest
      simp only [count_all_chunk, count_words_chunk]
      rw [a1, a2, a3, a4]
      exact ih _ _ _ _ _ (by
        simp only [List.length_drop]
        simp only [List.length_cons] at hlen
        omega)

/-- The two full read loops agree on the word counter. -/
theorem count_all_loop_words_eq :
    ∀ (chunks : List (List Nat)) (st : mbstate_t) (hs : Bool)
      (lines words sum : Nat), (∀ c ∈ chunks, c ≠ []) →
      (count_all_loop st hs lines words sum (chunks.map some)).words =
        (count_words_loop st hs words (chunks.map some)).1 := by
  intro chunks
  induction chunks with
  | nil =>
    intro st hs lines words sum hne
    simp [count_all_loop, count_words_loop]
  | cons c cs ih =>
    intro st hs lines words sum hne
    have hc : c ≠ [] := hne c (by simp)
    obtain ⟨a1, a2, a3⟩ :=
      count_all_chunk_words_eq c.length c st hs lines words le_rfl
    simp only [List.map_cons, count_all_loop, count_words_loop,
      isEmpty_false_of_ne hc, Bool.false_eq_true, if_false]
    rw [a1, a2, a3]
    exact ih _ _ _ _ _ (fun d hd => hne d (by simp [hd]))

/-- C2: for every input byte stream and every mode that requests WORDS —
the strategies `COUNT_WORDS_ONLY` and `COUNT_ALL` — the reported
`num_words` equals the number of maximal runs of non-whitespace units in
the scanned unit sequence (equivalently, by `wm_run_count_eq`, the number
of IN_SPACE → IN_WORD transitions of the word state machine started in
IN_SPACE); and trailing whitespace units never add a run, so trailing
whitespace creates no phantom word. -/
theorem c2_word_count (li : lc_info) (isr : Bool) (sz : Nat)
    (chunks : List (List Nat))
    (hne : ∀ c ∈ chunks, c ≠ [])
    (hlt : runCount (units_script mbst0 (chunks.map some)) < W64) :
    (count_words li ⟨isr, sz, chunks.map some⟩).li.num_words =
      runCount (units_script mbst0 (chunks.map some)) ∧
    (count_all li ⟨isr, sz, chunks.map some⟩).li.num_words =
      runCount (units_script mbst0 (chunks.map some)) ∧
    ∀ us : List Bool, runCount (us ++ [true]) = runCount us := by
  have h1 := count_words_loop_eq chunks mbst0 true 0 hne W64_pos
  have h2 := count_all_loop_words_eq chunks mbst0 true 0 0 0 hne
  have h3 := wm_run_count_eq (units_script mbst0 (chunks.map some)) true
  rw [if_pos rfl] at h3
  have hwcount : (count_words_loop mbst0 true 0 (chunks.map some)).1 =
      runCount (units_script mbst0 (chunks.map some)) := by
    rw [h1, h3, Nat.zero_add, Nat.mod_eq_of_lt hlt]
  refine ⟨?_, ?_, fun us => runCount_append_true us.length us le_rfl⟩
  · simp only [count_words]
    exact hwcount
  · simp only [count_all]
    rw [h2]
    exact hwcount

/-- Witness for C2 on `"h w"`: two maximal non-whitespace runs, two
counted words in both strategies. -/
theorem c2_word_count_witness :
    runCount (units_script mbst0 [some [104, 32, 119]]) = 2 ∧
    (count_words lc0 ⟨false, 0, [some [104, 32, 119]]⟩).li.num_words =
      runCount (units_script mbst0 [some [104, 32, 119]]) ∧
    (count_all lc0 ⟨false, 0, [some [104, 32, 119]]⟩).li.num_words =
      runCount (units_script mbst0 [some [104, 32, 119]]) := by
  have hrc : runCount (units_script mbst0 [some [104, 32, 119]]) = 2 := by
    simp [units_script, units_chunk, cw_step, runCount, is_ascii, is_print,
      is_space, mbst0, W64]
  have h := c2_word_count lc0 false 0 [[104, 32, 119]] (by decide)
    (by rw [show ([[104, 32, 119]] : List (List Nat)).map some =
      [some [104, 32, 119]] from rfl, hrc]; norm_num [W64])
  exact ⟨hrc, h.1, h.2.1⟩

/-! ## Chunk-boundary dependence (C6) and decoder-error classification
(C7) -/

/-- C6 fails on the code: the scan result depends on where the read
boundaries fall.  The stream `E3 80 61` (a truncated U+3000 followed by
`'a'`) yields 1 word when delivered in one read, but 2 words when
delivered as `E3 80` + `61`: the read ends in an incomplete sequence
(`mbrtowc` returns `(size_t)-2` after storing *both* bytes in the shift
state), the scanner advances only one byte, and the remaining `80` is fed
to the decoder a second time, completing a phantom U+3000 (ideographic
space) that splits the word.  `count_all` diverges the same way. -/
theorem c6_chunk_boundary_alters_result :
    (count_words lc0 ⟨false, 0, [some [0xe3, 0x80, 0x61]]⟩).li.num_words = 1 ∧
    (count_words lc0 ⟨false, 0, [some [0xe3, 0x80], some [0x61]]⟩).li.num_words
      = 2 ∧
    (count_all lc0 ⟨false, 0, [some [0xe3, 0x80, 0x61]]⟩).li.num_words = 1 ∧
    (count_all lc0 ⟨false, 0, [some [0xe3, 0x80], some [0x61]]⟩).li.num_words
      = 2 := by
  refine ⟨?_, ?_, ?_, ?_⟩ <;>
    simp [count_words, count_words_loop, count_words_chunk, cw_step,
      count_all, count_all_loop, count_all_chunk, ca_step, mb_consume,
      utf8_mbrtowc, grabConts, utf8_cont, utf8_len, utf8_val, utf8_min,
      iswspace, is_ascii, is_print, is_space, mbst0, W64]

/-- C7 fails as stated: on a decoder error the byte is *not* always
classified as non-whitespace.  `pwc` keeps the pre-set raw byte value and
`iswspace(pwc)` is still consulted, so the byte `0x85` (an invalid UTF-8
lead whose code point U+0085 is whitespace) sets `have_space` on a
decoder error; in `"a", 0x85, "b"` the code therefore counts 2 words
where the claimed classification would give 1. -/
theorem c7_decoder_error_counterexample :
    utf8_mbrtowc mbst0 [0x85, 0x62] = .invalid mbst0 ∧
    iswspace 0x85 = true ∧
    (count_words_chunk mbst0 true 0 [0x61, 0x85]).hs = true ∧
    (count_words lc0 ⟨false, 0, [some [0x61, 0x85, 0x62]]⟩).li.num_words
      = 2 := by
  refine ⟨by decide, by decide, ?_, ?_⟩ <;>
    simp [count_words, count_words_loop, count_words_chunk, cw_step,
      mb_consume, utf8_mbrtowc, grabConts, utf8_cont, utf8_len, iswspace,
      is_ascii, is_print, is_space, mbst0, W64]

/-- C7 amended: when the decoder returns `(size_t)-1` or `(size_t)-2` at
a byte, the scan is not aborted and the cursor advances exactly one byte;
the byte is then classified by applying the wide-character whitespace
predicate to its raw value (so e.g. `0x85`, or a `0x0A` reached with a
pending decoder state, sets `have_space`), and in `COUNT_ALL` the line
counter is additionally incremented exactly when the byte is `0x0A`. -/
theorem c7_decoder_error_amended (st st' : mbstate_t) (hs : Bool)
    (w lines : Nat) (b : Nat) (rest : List Nat)
    (hnf : ¬(is_ascii b && is_print b) = true)
    (herr : utf8_mbrtowc st (b :: rest) = .invalid st' ∨
            utf8_mbrtowc st (b :: rest) = .incomplete st') :
    count_words_chunk st hs w (b :: rest) =
      (if iswspace b then count_words_chunk st' true w rest
       else if hs then count_words_chunk st' false ((w + 1) % W64) rest
       else count_words_chunk st' false w rest) ∧
    count_all_chunk st hs lines w (b :: rest) =
      (if iswspace b then count_all_chunk st' true
          (if b == 10 then (lines + 1) % W64 else lines) w rest
       else if hs then count_all_chunk st' false
          (if b == 10 then (lines + 1) % W64 else lines) ((w + 1) % W64) rest
       else count_all_chunk st' false
          (if b == 10 then (lines + 1) % W64 else lines) w rest) := by
  have hmb : mb_consume st b rest = (b, 1, st') := by
    unfold mb_consume
    rcases herr with h | h <;> rw [h]
  constructor
  · simp only [count_words_chunk]
    unfold cw_step
    rw [if_neg hnf, hmb]
    by_cases hsp : iswspace b = true
    · rw [if_pos hsp, if_pos hsp]
      simp
    · rw [if_neg hsp, if_neg hsp]
      by_cases hh : hs = true
      · rw [if_pos hh, if_pos hh]
        simp
      · rw [if_neg hh, if_neg hh]
        simp
  · simp only [count_all_chunk]
    unfold ca_step
    rw [if_neg hnf, hmb]
    by_cases hsp : iswspace b = true
    · rw [if_pos hsp, if_pos hsp]
      simp
    · rw [if_neg hsp, if_neg hsp]
      by_cases hh : hs = true
      · rw [if_pos hh, if_pos hh]
        simp
      · rw [if_neg hh, if_neg hh]
        simp

/-- Witness for the amended C7 at the invalid byte `0x85` with one byte
of lookahead. -/
theorem c7_decoder_error_amended_witness :
    ¬(is_ascii 0x85 && is_print 0x85) = true ∧
    utf8_mbrtowc mbst0 [0x85, 0x62] = .invalid mbst0 ∧
    count_words_chunk mbst0 true 0 [0x85, 0x62] =
      (if iswspace 0x85 then count_words_chunk mbst0 true 0 [0x62]
       else if true then count_words_chunk mbst0 false ((0 + 1) % W64) [0x62]
       else count_words_chunk mbst0 false 0 [0x62]) :=
  ⟨by decide, by decide,
    (c7_decoder_error_amended mbst0 mbst0 true 0 0 0x85 [0x62]
      (by decide) (Or.inl (by decide))).1⟩

/-! ## The driver: descriptor closes (C9) and lazy per-file processing
(C10) -/

theorem promote_promote (lc : lc_conf) : promote (promote lc) = promote lc := by
  unfold promote
  by_cases h : (!lc.opt_lines && !lc.opt_words && !lc.opt_bytes) = true
  · rw [if_pos h]
    rfl
  · rw [if_neg h, if_neg h]

theorem use_opts_lc (li : lc_info) (lc : lc_conf) (src : Source) :
    (use_opts li lc src).lc = promote lc := by
  simp only [use_opts]
  split_ifs <;> rfl

/-- The fields printed for one source depend only on the option set (after
promotion) and the source, not on the accumulated `lc_info`. -/
theorem use_opts_fields_norm (li : lc_info) (lc : lc_conf) (src : Source) :
    (use_opts li lc src).fields = (use_opts lc0 (promote lc) src).fields := by
  simp only [use_opts]
  rw [promote_promote]
  split_ifs <;>
    (simp [count_all, count_bytes, count_lines_and_bytes, count_words]
     <;> split_ifs <;> rfl)

/-- C9 fails as stated: three of the four scan strategies close the
descriptor themselves.  Here `COUNT_BYTES_ONLY` closes the borrowed
descriptor once before returning. -/
theorem c9_scanner_closes_counterexample :
    (count_bytes lc0 ⟨false, 0, []⟩).closes = 1 ∧
    (count_bytes lc0 ⟨false, 0, []⟩).closes ≠ 0 := by
  refine ⟨?_, by decide⟩
  decide

/-- C9 amended: `count_all` never closes the descriptor, but
`count_bytes`, `count_lines_and_bytes` and `count_words` each close it
exactly once before returning; the driver then closes it once more after
`use_opts` returns, so for those three strategies the descriptor is
closed twice in total (the second `close` hitting an already-closed
descriptor). -/
theorem c9_close_discipline_amended (li : lc_info) (src : Source)
    (lc : lc_conf) (fs : String → Option Source) (arg : String)
    (src2 : Source) (harg : arg ≠ "-") (hfs : fs arg = some src2) :
    (count_all li src).closes = 0 ∧
    (count_bytes li src).closes = 1 ∧
    (count_lines_and_bytes li src).closes = 1 ∧
    (count_words li src).closes = 1 ∧
    (main_files li lc fs [arg]).1.closes = (use_opts li lc src2).closes + 1 := by
  refine ⟨rfl, ?_, rfl, rfl, ?_⟩
  · unfold count_bytes
    split_ifs <;> rfl
  · simp [main_files, harg, hfs]

/-- Witness for the amended C9: a `-b` run on one file whose scan
(`count_bytes`) closes once and whose driver closes once more. -/
theorem c9_close_discipline_amended_witness :
    (count_all lc0 ⟨false, 0, []⟩).closes = 0 ∧
    (main_files lc0 ⟨true, false, false⟩
      (fun n => if n = "f" then some ⟨false, 0, []⟩ else none)
      ["f"]).1.closes =
      (use_opts lc0 ⟨true, false, false⟩ ⟨false, 0, []⟩).closes + 1 ∧
    (use_opts lc0 ⟨true, false, false⟩ ⟨false, 0, []⟩).closes = 1 := by
  have h := c9_close_discipline_amended lc0 ⟨false, 0, []⟩
    ⟨true, false, false⟩
    (fun n => if n = "f" then some ⟨false, 0, []⟩ else none)
    "f" ⟨false, 0, []⟩ (by decide) (by simp)
  exact ⟨h.1, h.2.2.2.2, by decide⟩

/-- The per-file loop on a good prefix followed by a bad argument: exit
code 1, and exactly the good prefix's per-file lines already emitted. -/
theorem main_files_split :
    ∀ (good : List String) (li : lc_info) (lc : lc_conf)
      (fs : String → Option Source) (bad : String) (rest : List String),
      (∀ a ∈ good, a ≠ "-" ∧ (fs a).isSome) →
      (bad = "-" ∨ fs bad = none) →
      (main_files li lc fs (good ++ bad :: rest)).1.code = 1 ∧
      (main_files li lc fs (good ++ bad :: rest)).1.out =
        good.map (fun a => Entry.fileLine
          ((use_opts lc0 (promote lc) ((fs a).getD ⟨false, 0, []⟩)).fields) a) := by
  intro good
  induction good with
  | nil =>
    intro li lc fs bad rest hgood hbad
    simp only [List.nil_append, main_files]
    by_cases hdash : bad = "-"
    · rw [if_pos hdash]
      simp
    · rw [if_neg hdash]
      rcases hbad with h | h
      · exact absurd h hdash
      · simp only [h]
        simp
  | cons a good' ih =>
    intro li lc fs bad rest hgood hbad
    obtain ⟨ha, hsome⟩ := hgood a (by simp)
    obtain ⟨srcA, hsrcA⟩ := Option.isSome_iff_exists.mp hsome
    simp only [List.cons_append, main_files]
    rw [if_neg ha]
    simp only [hsrcA]
    obtain ⟨ih1, ih2⟩ := ih (use_opts li lc srcA).li (use_opts li lc srcA).lc
      fs bad rest (fun d hd => hgood d (by simp [hd])) hbad
    rw [use_opts_lc, promote_promote] at ih2
    refine ⟨ih1, ?_⟩
    simp only [List.map_cons]
    have hfield : (use_opts li lc srcA).fields =
        (use_opts lc0 (promote lc) ((fs a).getD ⟨false, 0, []⟩)).fields := by
      rw [hsrcA]
      exact use_opts_fields_norm li lc srcA
    rw [show good'.append (bad :: rest) = good' ++ bad :: rest from rfl,
      use_opts_lc, ih2, hfield]

/-- C10: with several file arguments of which the first `good.length ≥ 1`
open fine and the next is a bare `-` or fails to open, the driver has
already written the per-file count line of every good argument to
standard output (in order) before exiting with code 1, and no `total`
line is ever written: arguments are validated and scanned lazily, one at
a time. -/
theorem c10_lazy_partial_output (lc : lc_conf) (fs : String → Option Source)
    (stdin : Source) (good : List String) (bad : String) (rest : List String)
    (hgood : ∀ a ∈ good, a ≠ "-" ∧ (fs a).isSome)
    (_hlen : 1 ≤ good.length)
    (hbad : bad = "-" ∨ fs bad = none) :
    (lc_main lc fs (good ++ bad :: rest) stdin).code = 1 ∧
    (lc_main lc fs (good ++ bad :: rest) stdin).out =
      good.map (fun a => Entry.fileLine
        ((use_opts lc0 (promote lc) ((fs a).getD ⟨false, 0, []⟩)).fields) a) ∧
    ∀ e ∈ (lc_main lc fs (good ++ bad :: rest) stdin).out,
      ∀ f : List Nat, e ≠ Entry.totalLine f := by
  obtain ⟨h1, h2⟩ := main_files_split good lc0 lc fs bad rest hgood hbad
  have hargs : (good ++ bad :: rest).isEmpty = false :=
    isEmpty_false_of_ne (by
      intro h
      have := congrArg List.length h
      simp at this)
  have hmain : lc_main lc fs (good ++ bad :: rest) stdin =
      (main_files lc0 lc fs (good ++ bad :: rest)).1 := by
    unfold lc_main
    rw [hargs]
    simp only [Bool.false_eq_true, if_false]
    rw [if_neg (by
      simp only [h1]
      simp)]
  rw [hmain, h1, h2]
  refine ⟨rfl, rfl, ?_⟩
  intro e he f
  obtain ⟨a, -, rfl⟩ := List.mem_map.mp he
  simp

/-- Witness for C10: `-l` on `["f1", "f2"]` where `f1` holds `"a\n"` and
`f2` fails to open — the `f1` line is on standard output, the exit code
is 1, and no `total` line was produced. -/
theorem c10_lazy_partial_output_witness :
    (lc_main ⟨false, true, false⟩
      (fun n => if n = "f1" then some ⟨false, 0, [some [97, 10]]⟩ else none)
      ["f1", "f2"] ⟨false, 0, []⟩).code = 1 ∧
    (lc_main ⟨false, true, false⟩
      (fun n => if n = "f1" then some ⟨false, 0, [some [97, 10]]⟩ else none)
      ["f1", "f2"] ⟨false, 0, []⟩).out = [Entry.fileLine [1] "f1"] := by
  have h := c10_lazy_partial_output ⟨false, true, false⟩
    (fun n => if n = "f1" then some ⟨false, 0, [some [97, 10]]⟩ else none)
    ⟨false, 0, []⟩ ["f1"] "f2" []
    (by
      intro a ha
      simp only [List.mem_singleton] at ha
      subst ha
      exact ⟨by decide, by decide⟩)
    (by decide) (Or.inr rfl)
  exact ⟨h.1, h.2.1.trans (by decide)⟩

end LC
